import Mathlib

/-!
Verification development for the `enigmatic_dgb` transaction planning and
chained-broadcast engine (`planner.py`, `fees.py`, `tx_builder.py`).

Monetary amounts are embedded as exact rationals (`ℚ`); the Python
`Decimal.quantize(EIGHT_DP, ROUND_DOWN)` call is embedded as an explicit
truncation to eight fractional digits.  Fallible code is embedded in
`Except String`.  External collaborators (the wallet node) are embedded as
explicit parameters: the wallet-reported UTXO list, address generators
(`Nat → String` for successive `getrawchangeaddress` calls), a txid oracle
(`Nat → String` for successive build-and-broadcast calls) and a boolean
confirmation gate standing for the timed confirmation-wait loop.
-/

set_option maxRecDepth 4000

set_option allowUnsafeReducibility true

attribute [local semireducible] Rat.add Rat.mul Rat.inv Rat.div Rat.sub Rat.neg

/-- `0.00000001`, the quantum of the eight-decimal fixed-point amounts. -/
def EIGHT_DP : ℚ := 1 / 100000000

/-- `DUST_LIMIT = Decimal("0.00010000")` from `planner.py`. -/
def DUST_LIMIT : ℚ := 1 / 10000

/-- `PREVIOUS_CHANGE_SENTINEL` from `planner.py`. -/
def PREVIOUS_CHANGE_SENTINEL : String := "__PREVIOUS_CHANGE__"

/-- `Decimal.quantize(EIGHT_DP, rounding=ROUND_DOWN)`: truncate a rational
toward zero at eight fractional digits. -/
def quantize8 (q : ℚ) : ℚ :=
  if 0 ≤ q then (⌊q * 100000000⌋ : ℚ) / 100000000
  else -((⌊-q * 100000000⌋ : ℚ) / 100000000)

/-- A rational is representable with eight fractional digits. -/
def Quant8 (q : ℚ) : Prop := ∃ n : ℤ, q = (n : ℚ) / 100000000

theorem quantize8_le (q : ℚ) (h : 0 ≤ q) : quantize8 q ≤ q := by
  unfold quantize8
  rw [if_pos h]
  rw [div_le_iff₀ (by norm_num : (0:ℚ) < 100000000)]
  exact Int.floor_le _

theorem lt_quantize8_add (q : ℚ) (h : 0 ≤ q) : q < quantize8 q + EIGHT_DP := by
  unfold quantize8 EIGHT_DP
  rw [if_pos h]
  have h1 : q * 100000000 < (⌊q * 100000000⌋ : ℚ) + 1 := Int.lt_floor_add_one _
  rw [div_add_div_same, lt_div_iff₀ (by norm_num : (0:ℚ) < 100000000)]
  exact h1

theorem quantize8_nonneg (q : ℚ) (h : 0 ≤ q) : 0 ≤ quantize8 q := by
  unfold quantize8
  rw [if_pos h]
  positivity

theorem quant8_quantize8 (q : ℚ) : Quant8 (quantize8 q) := by
  unfold quantize8
  by_cases h : 0 ≤ q
  · rw [if_pos h]; exact ⟨⌊q * 100000000⌋, rfl⟩
  · rw [if_neg h]
    exact ⟨-⌊-q * 100000000⌋, by push_cast; ring⟩

theorem quantize8_of_quant8 {q : ℚ} (h : Quant8 q) : quantize8 q = q := by
  obtain ⟨n, rfl⟩ := h
  unfold quantize8
  have hd : ((n : ℚ) / 100000000) * 100000000 = (n : ℚ) := by
    field_simp
  by_cases hn : 0 ≤ (n : ℚ) / 100000000
  · rw [if_pos hn, hd, Int.floor_intCast]
  · rw [if_neg hn]
    have : -((n : ℚ) / 100000000) * 100000000 = ((-n : ℤ) : ℚ) := by push_cast; field_simp
    rw [this, Int.floor_intCast]
    push_cast
    ring

theorem Quant8.add {a b : ℚ} (ha : Quant8 a) (hb : Quant8 b) : Quant8 (a + b) := by
  obtain ⟨m, rfl⟩ := ha
  obtain ⟨n, rfl⟩ := hb
  exact ⟨m + n, by push_cast; ring⟩

deriving instance DecidableEq for Except

/-- A wallet-reported unspent output, as consumed by the planner
(`rpc.listunspent` entries; `amount` already parsed to an exact decimal). -/
structure Utxo where
  txid : String
  vout : Nat
  amount : ℚ
  spendable : Bool
  deriving DecidableEq

/-- `PatternInput` dataclass from `planner.py`. -/
structure PatternInput where
  txid : String
  vout : Nat
  amount : ℚ
  deriving DecidableEq

/-- `PatternOutput` dataclass from `planner.py`. -/
structure PatternOutput where
  address : String
  amount : ℚ
  deriving DecidableEq

/-- `PatternPlan` dataclass from `planner.py` (the opaque script-plane tag is
embedded as an optional string). -/
structure PatternPlan where
  inputs : List PatternInput
  outputs : List PatternOutput
  change_output : Option PatternOutput
  fee : ℚ
  script_plane : Option String
  deriving DecidableEq

/-- `PatternPlanSequence` dataclass from `planner.py`. -/
structure PatternPlanSequence where
  steps : List PatternPlan
  deriving DecidableEq

/-- Stable insertion step for a descending sort by amount (used to embed
Python's stable `sorted(..., key=amount, reverse=True)`). -/
def insertDescUtxo (u : Utxo) : List Utxo → List Utxo
  | [] => [u]
  | v :: rest => if v.amount ≤ u.amount then u :: v :: rest else v :: insertDescUtxo u rest

/-- `sorted(spendable, key=lambda item: Decimal(str(item["amount"])), reverse=True)`:
stable descending sort by amount. -/
def sortDescAmount (l : List Utxo) : List Utxo := l.foldr insertDescUtxo []

/-- The accumulation loop of `_select_utxos_covering_total`: walk the sorted
candidates, keep a running total, stop as soon as the total covers the
minimum.  Returns the selected prefix and the final running total. -/
def coverLoop (minimum_total : ℚ) : List Utxo → ℚ → List Utxo × ℚ
  | [], total => ([], total)
  | u :: rest, total =>
    let total' := total + u.amount
    if minimum_total ≤ total' then ([u], total')
    else
      let r := coverLoop minimum_total rest total'
      (u :: r.1, r.2)

/-- `_select_utxos_covering_total` from `planner.py`: filter to spendable
UTXOs, sort descending by amount, accumulate until the minimum total is
covered. -/
def selectUtxosCoveringTotal (utxos : List Utxo) (minimum_total : ℚ) :
    Except String (List Utxo × ℚ) :=
  let spendable := utxos.filter (·.spendable)
  if spendable.isEmpty then .error "Wallet has no spendable UTXOs"
  else
    let candidates := sortDescAmount spendable
    let r := coverLoop minimum_total candidates 0
    if r.2 < minimum_total then
      .error "Selected inputs total below required minimum to cover requested outputs and fee"
    else .ok r

/-- The per-amount validation/normalization loop at the head of
`plan_explicit_pattern`: reject non-positive amounts, truncate each amount
to eight fractional digits. -/
def normalizeAmounts : List ℚ → Except String (List ℚ)
  | [] => .ok []
  | a :: rest =>
    if a ≤ 0 then .error "Each output amount must be greater than zero"
    else
      match normalizeAmounts rest with
      | .error e => .error e
      | .ok rest' => .ok (quantize8 a :: rest')

/-- The body of one iteration of the `plan_explicit_pattern` loop, once the
step's funding inputs (`step_inputs`) and available pool are determined:
check funds, compute the truncated change, reject positive sub-dust change
on a non-final step, attach change `≥ DUST_LIMIT` to a fresh change address,
fold a final step's positive sub-dust change into the step's own output.
Returns the step, the next pending change and the next fresh-address index. -/
def planStep (to_address : String) (fee : ℚ) (changeAddr : Nat → String)
    (script_plane : Option String) (step_inputs : List PatternInput) (pool : ℚ)
    (amount : ℚ) (is_last : Bool) (cidx : Nat) :
    Except String (PatternPlan × ℚ × Nat) :=
  if pool < amount + fee then
    .error "Insufficient funds for requested pattern amounts and fees"
  else
    let change_amount := quantize8 (pool - amount - fee)
    if 0 < change_amount ∧ change_amount < DUST_LIMIT ∧ is_last = false then
      .error "Intermediate chained change would fall below dust limit; adjust fee or amounts"
    else if DUST_LIMIT ≤ change_amount then
      .ok (⟨step_inputs, [⟨to_address, amount⟩], some ⟨changeAddr cidx, change_amount⟩,
            fee, script_plane⟩, change_amount, cidx + 1)
    else if 0 < change_amount then
      .ok (⟨step_inputs, [⟨to_address, quantize8 (amount + change_amount)⟩], none,
            fee, script_plane⟩, 0, cidx)
    else
      .ok (⟨step_inputs, [⟨to_address, amount⟩], none, fee, script_plane⟩,
            change_amount, cidx)

/-- The funding source of one step of `plan_explicit_pattern`: the selected
UTXOs on the first step (`index == 0`), else the previous step's pending
change as a sentinel input (after the dust check on the pending change). -/
def stepFunding (pattern_inputs : List PatternInput) (isFirst : Bool)
    (available_pool : ℚ) (pending_change : Option ℚ) :
    Except String (List PatternInput × ℚ) :=
  if isFirst then .ok (pattern_inputs, available_pool)
  else
    match pending_change with
    | none => .error "Chained plan expected change from previous step"
    | some p =>
      if p < DUST_LIMIT then
        .error "Intermediate chained change would fall below dust limit; adjust fee or amounts"
      else .ok ([⟨PREVIOUS_CHANGE_SENTINEL, 0, p⟩], p)

/-- The main per-step loop of `plan_explicit_pattern`.  `isFirst` marks the
`index == 0` iteration; `changeAddr` embeds successive
`rpc.getrawchangeaddress()` results, indexed by `cidx`.  Returns the steps
together with the next fresh-address index. -/
def planLoop (to_address : String) (fee : ℚ) (changeAddr : Nat → String)
    (script_plane : Option String) (pattern_inputs : List PatternInput) :
    List ℚ → Bool → ℚ → Option ℚ → Nat → Except String (List PatternPlan × Nat)
  | [], _, _, _, cidx => .ok ([], cidx)
  | amount :: rest, isFirst, available_pool, pending_change, cidx =>
    match stepFunding pattern_inputs isFirst available_pool pending_change with
    | .error e => .error e
    | .ok (step_inputs, pool) =>
      match planStep to_address fee changeAddr script_plane step_inputs pool amount
          rest.isEmpty cidx with
      | .error e => .error e
      | .ok (step, new_change, cidx') =>
        match planLoop to_address fee changeAddr script_plane pattern_inputs rest
            false pool (some new_change) cidx' with
        | .error e => .error e
        | .ok (steps, c') => .ok (step :: steps, c')

/-- `plan_explicit_pattern` from `planner.py`.  `utxos` embeds the
`rpc.listunspent` result and `changeAddr` the successive
`rpc.getrawchangeaddress()` results. -/
def plan_explicit_pattern (utxos : List Utxo) (changeAddr : Nat → String)
    (to_address : String) (amounts : List ℚ) (fee : ℚ)
    (script_plane : Option String := none) :
    Except String PatternPlanSequence :=
  if amounts.isEmpty then .error "At least one output amount must be provided"
  else
    match normalizeAmounts amounts with
    | .error e => .error e
    | .ok normalized_amounts =>
      let total_pattern := normalized_amounts.sum
      if total_pattern ≤ 0 then .error "Total output amount must be greater than zero"
      else if fee < 0 then .error "Fee must be non-negative"
      else
        let required_total := total_pattern + fee * normalized_amounts.length
        match selectUtxosCoveringTotal utxos required_total with
        | .error e => .error e
        | .ok (selected, total) =>
          let pattern_inputs := selected.map fun u => PatternInput.mk u.txid u.vout u.amount
          match planLoop to_address fee changeAddr script_plane pattern_inputs
              normalized_amounts true total none 0 with
          | .error e => .error e
          | .ok (steps, _) => .ok ⟨steps⟩

/-- Total amount carried by a step's inputs. -/
def inputsTotal (s : PatternPlan) : ℚ := (s.inputs.map PatternInput.amount).sum

/-- Total amount carried by a step's value outputs. -/
def outputsTotal (s : PatternPlan) : ℚ := (s.outputs.map PatternOutput.amount).sum

/-- The step's change amount: the change output's amount, `0` when there is
no change output. -/
def changeAmt (s : PatternPlan) : ℚ :=
  match s.change_output with
  | some c => c.amount
  | none => 0

/-- Fund conservation for one step, within one amount quantum:
`|sum(inputs.amount) - (sum(value_outputs.amount) + change_amount + fee)| ≤ 1e-8`. -/
def StepConserved (s : PatternPlan) : Prop :=
  |inputsTotal s - (outputsTotal s + changeAmt s + s.fee)| ≤ EIGHT_DP

theorem sub_quantize8_bounds {d : ℚ} (hd : 0 ≤ d) :
    0 ≤ d - quantize8 d ∧ d - quantize8 d < EIGHT_DP := by
  constructor
  · have := quantize8_le d hd
    linarith
  · have := lt_quantize8_add d hd
    linarith

theorem planStep_conserved {to_address : String} {fee : ℚ} {changeAddr : Nat → String}
    {script_plane : Option String} {step_inputs : List PatternInput} {pool : ℚ}
    {amount : ℚ} {is_last : Bool} {cidx : Nat} {step : PatternPlan} {nc : ℚ} {c' : Nat}
    (h : planStep to_address fee changeAddr script_plane step_inputs pool amount
      is_last cidx = .ok (step, nc, c'))
    (hins : (step_inputs.map PatternInput.amount).sum = pool)
    (hqa : Quant8 amount) :
    StepConserved step := by
  unfold planStep at h
  split at h
  · exact absurd h (by simp)
  · next hfunds =>
    have hd : 0 ≤ pool - amount - fee := by linarith [not_lt.mp hfunds]
    have hb := sub_quantize8_bounds hd
    dsimp only at h
    split at h
    · exact absurd h (by simp)
    · next hnotdust =>
      split at h
      · next hdust =>
        simp only [Except.ok.injEq, Prod.mk.injEq] at h
        obtain ⟨rfl, rfl, rfl⟩ := h
        simp only [StepConserved, inputsTotal, outputsTotal, changeAmt, List.map_cons,
          List.map_nil, List.sum_cons, List.sum_nil, hins]
        rw [abs_le]
        constructor <;> [skip; skip] <;> unfold EIGHT_DP <;> obtain ⟨hb1, hb2⟩ := hb <;>
          unfold EIGHT_DP at hb2 <;> linarith
      · split at h
        · next hpos =>
          simp only [Except.ok.injEq, Prod.mk.injEq] at h
          obtain ⟨rfl, rfl, rfl⟩ := h
          have hqc : Quant8 (quantize8 (pool - amount - fee)) := quant8_quantize8 _
          have hfold : quantize8 (amount + quantize8 (pool - amount - fee)) =
              amount + quantize8 (pool - amount - fee) :=
            quantize8_of_quant8 (hqa.add hqc)
          simp only [StepConserved, inputsTotal, outputsTotal, changeAmt, List.map_cons,
            List.map_nil, List.sum_cons, List.sum_nil, hins, hfold]
          rw [abs_le]
          constructor <;> unfold EIGHT_DP <;> obtain ⟨hb1, hb2⟩ := hb <;>
            unfold EIGHT_DP at hb2 <;> linarith
        · next hnotpos =>
          simp only [Except.ok.injEq, Prod.mk.injEq] at h
          obtain ⟨rfl, rfl, rfl⟩ := h
          have hzero : quantize8 (pool - amount - fee) = 0 :=
            le_antisymm (not_lt.mp hnotpos) (quantize8_nonneg _ hd)
          simp only [StepConserved, inputsTotal, outputsTotal, changeAmt, List.map_cons,
            List.map_nil, List.sum_cons, List.sum_nil, hins]
          rw [abs_le]
          constructor <;> unfold EIGHT_DP <;> obtain ⟨hb1, hb2⟩ := hb <;>
            rw [hzero] at hb1 hb2 <;> unfold EIGHT_DP at hb2 <;> linarith

theorem stepFunding_sum {pattern_inputs : List PatternInput} {first : Bool} {pool : ℚ}
    {pending : Option ℚ} {ins : List PatternInput} {p : ℚ}
    (h : stepFunding pattern_inputs first pool pending = .ok (ins, p))
    (hfirst : first = true → (pattern_inputs.map PatternInput.amount).sum = pool) :
    (ins.map PatternInput.amount).sum = p := by
  unfold stepFunding at h
  split at h
  · next hf =>
    simp only [Except.ok.injEq, Prod.mk.injEq] at h
    obtain ⟨rfl, rfl⟩ := h
    exact hfirst (by simpa using hf)
  · match pending with
    | none => exact absurd h (by simp)
    | some q =>
      simp only at h
      split at h
      · exact absurd h (by simp)
      · simp only [Except.ok.injEq, Prod.mk.injEq] at h
        obtain ⟨rfl, rfl⟩ := h
        simp

theorem planLoop_ok_spec (to_address : String) (fee : ℚ) (changeAddr : Nat → String)
    (script_plane : Option String) (pattern_inputs : List PatternInput) :
    ∀ (amounts : List ℚ) (first : Bool) (pool : ℚ) (pending : Option ℚ) (cidx : Nat)
      (steps : List PatternPlan) (cidx' : Nat),
      planLoop to_address fee changeAddr script_plane pattern_inputs amounts first pool
        pending cidx = .ok (steps, cidx') →
      (∀ a ∈ amounts, Quant8 a) →
      (first = true → (pattern_inputs.map PatternInput.amount).sum = pool) →
      steps.length = amounts.length ∧ ∀ s ∈ steps, StepConserved s
  | [], _, _, _, _, steps, _, h, _, _ => by
    unfold planLoop at h
    simp only [Except.ok.injEq, Prod.mk.injEq] at h
    obtain ⟨h1, _⟩ := h
    subst h1
    simp
  | amount :: rest, first, pool, pending, cidx, steps, cidx', h, hq, hfirst => by
    unfold planLoop at h
    cases hsf : stepFunding pattern_inputs first pool pending with
    | error e => rw [hsf] at h; exact absurd h (by simp)
    | ok insp =>
      obtain ⟨ins, p⟩ := insp
      rw [hsf] at h
      dsimp only at h
      cases hps : planStep to_address fee changeAddr script_plane ins p amount
          rest.isEmpty cidx with
      | error e => rw [hps] at h; exact absurd h (by simp)
      | ok r =>
        obtain ⟨step, nc, cidx2⟩ := r
        rw [hps] at h
        dsimp only at h
        cases hrec : planLoop to_address fee changeAddr script_plane pattern_inputs rest
            false p (some nc) cidx2 with
        | error e => rw [hrec] at h; exact absurd h (by simp)
        | ok sr =>
          obtain ⟨steps2, c2⟩ := sr
          rw [hrec] at h
          dsimp only at h
          simp only [Except.ok.injEq, Prod.mk.injEq] at h
          obtain ⟨rfl, rfl⟩ := h
          have hsum := stepFunding_sum hsf hfirst
          have hcons := planStep_conserved hps hsum (hq amount (by simp))
          have ih := planLoop_ok_spec to_address fee changeAddr script_plane pattern_inputs
            rest false p (some nc) cidx2 steps2 c2 hrec
            (fun a ha => hq a (by simp [ha])) (by simp)
          refine ⟨by simp [ih.1], ?_⟩
          intro s hs
          rcases List.mem_cons.mp hs with rfl | hs2
          · exact hcons
          · exact ih.2 s hs2

theorem normalizeAmounts_ok : ∀ {amounts norm : List ℚ},
    normalizeAmounts amounts = .ok norm →
    norm.length = amounts.length ∧ ∀ a ∈ norm, Quant8 a
  | [], norm, h => by
    unfold normalizeAmounts at h
    simp only [Except.ok.injEq] at h
    subst h
    simp
  | a :: rest, norm, h => by
    unfold normalizeAmounts at h
    split at h
    · exact absurd h (by simp)
    · cases hr : normalizeAmounts rest with
      | error e => rw [hr] at h; exact absurd h (by simp)
      | ok rest' =>
        rw [hr] at h
        simp only [Except.ok.injEq] at h
        subst h
        have ih := normalizeAmounts_ok hr
        refine ⟨by simp [ih.1], ?_⟩
        intro b hb
        rcases List.mem_cons.mp hb with rfl | hb2
        · exact quant8_quantize8 a
        · exact ih.2 b hb2

theorem coverLoop_total (m : ℚ) : ∀ (l : List Utxo) (acc : ℚ),
    (coverLoop m l acc).2 = acc + ((coverLoop m l acc).1.map Utxo.amount).sum
  | [], acc => by simp [coverLoop]
  | u :: rest, acc => by
    unfold coverLoop
    dsimp only
    split
    · simp
    · have ih := coverLoop_total m rest (acc + u.amount)
      simp only [List.map_cons, List.sum_cons]
      rw [ih]
      ring

theorem selectUtxosCoveringTotal_sum {utxos : List Utxo} {m : ℚ} {sel : List Utxo}
    {total : ℚ} (h : selectUtxosCoveringTotal utxos m = .ok (sel, total)) :
    total = (sel.map Utxo.amount).sum ∧ m ≤ total := by
  unfold selectUtxosCoveringTotal at h
  dsimp only at h
  split at h
  · exact absurd h (by simp)
  · split at h
    · exact absurd h (by simp)
    · next hge =>
      simp only [Except.ok.injEq] at h
      have hfst := congrArg Prod.fst h
      have hsnd := congrArg Prod.snd h
      dsimp only at hfst hsnd
      have htot := coverLoop_total m (sortDescAmount (utxos.filter (·.spendable))) 0
      rw [hfst, hsnd] at htot
      refine ⟨by simpa using htot, ?_⟩
      rw [← hsnd]
      exact not_lt.mp hge

/-- C1: for every non-empty list of positive amounts with `fee ≥ 0` for which
`plan_explicit_pattern` succeeds (i.e. the wallet funds suffice), the
returned `PatternPlanSequence` has exactly one step per amount, and every
step conserves funds within `1e-8`:
`|sum(inputs.amount) - (sum(value_outputs.amount) + change_amount + fee)| ≤ 1e-8`. -/
theorem plan_explicit_pattern_conserves
    (utxos : List Utxo) (changeAddr : Nat → String) (to_address : String)
    (amounts : List ℚ) (fee : ℚ) (script_plane : Option String)
    (seq : PatternPlanSequence)
    (hne : amounts ≠ [])
    (hpos : ∀ a ∈ amounts, 0 < a)
    (hfee : 0 ≤ fee)
    (h : plan_explicit_pattern utxos changeAddr to_address amounts fee script_plane
      = .ok seq) :
    seq.steps.length = amounts.length ∧ ∀ s ∈ seq.steps, StepConserved s := by
  unfold plan_explicit_pattern at h
  split at h
  · exact absurd h (by simp)
  · cases hn : normalizeAmounts amounts with
    | error e => rw [hn] at h; exact absurd h (by simp)
    | ok norm =>
      rw [hn] at h
      dsimp only at h
      split at h
      · exact absurd h (by simp)
      · split at h
        · exact absurd h (by simp)
        · cases hsel : selectUtxosCoveringTotal utxos (norm.sum + fee * (norm.length : ℚ)) with
          | error e => rw [hsel] at h; exact absurd h (by simp)
          | ok st =>
            obtain ⟨selected, total⟩ := st
            rw [hsel] at h
            dsimp only at h
            cases hpl : planLoop to_address fee changeAddr script_plane
                (selected.map fun u => PatternInput.mk u.txid u.vout u.amount)
                norm true total none 0 with
            | error e => rw [hpl] at h; exact absurd h (by simp)
            | ok sc =>
              obtain ⟨steps, c⟩ := sc
              rw [hpl] at h
              simp only [Except.ok.injEq] at h
              subst h
              have hnorm := normalizeAmounts_ok hn
              have hselsum := selectUtxosCoveringTotal_sum hsel
              have hspec := planLoop_ok_spec to_address fee changeAddr script_plane
                (selected.map fun u => PatternInput.mk u.txid u.vout u.amount)
                norm true total none 0 steps c hpl hnorm.2
                (fun _ => by
                  rw [List.map_map]
                  exact hselsum.1.symm)
              exact ⟨hspec.1.trans hnorm.1, hspec.2⟩

/-- The wallet UTXO set of the concrete scenario from the spec (amounts
4.0, 3.0, 2.0, all spendable). -/
def utxosW : List Utxo := [⟨"a", 0, 4, true⟩, ⟨"b", 1, 3, true⟩, ⟨"c", 2, 2, true⟩]

/-- A concrete change-address generator standing for successive
`getrawchangeaddress` results. -/
def chgAddrW : Nat → String := fun k => "chg" ++ toString k

/-- The plan that `plan_explicit_pattern` produces on the concrete scenario
(amounts `[1, 2, 3]`, fee `0.1`, wallet `{4, 3, 2}`). -/
def seqW : PatternPlanSequence :=
  ⟨[⟨[⟨"a", 0, 4⟩, ⟨"b", 1, 3⟩], [⟨"dst", 1⟩], some ⟨"chg0", 59/10⟩, 1/10, none⟩,
    ⟨[⟨PREVIOUS_CHANGE_SENTINEL, 0, 59/10⟩], [⟨"dst", 2⟩], some ⟨"chg1", 19/5⟩, 1/10, none⟩,
    ⟨[⟨PREVIOUS_CHANGE_SENTINEL, 0, 19/5⟩], [⟨"dst", 3⟩], some ⟨"chg2", 7/10⟩, 1/10, none⟩]⟩

/-- Witness for the conservation theorem at the concrete scenario:
all hypotheses hold and the conclusion is evaluated on the run's plan. -/
theorem plan_explicit_pattern_conserves_witness :
    seqW.steps.length = 3 ∧
      StepConserved ⟨[⟨"a", 0, 4⟩, ⟨"b", 1, 3⟩], [⟨"dst", 1⟩],
        some ⟨"chg0", 59/10⟩, 1/10, none⟩ := by
  have happ := plan_explicit_pattern_conserves utxosW chgAddrW "dst"
    [1, 2, 3] (1/10) none seqW (by decide) (by decide) (by decide) (by decide)
  exact ⟨happ.1, happ.2 _ (by decide)⟩

/-- C5 counterexample: on the spec's concrete scenario (amounts
`[1.0, 2.0, 3.0]`, fee `0.1`, wallet UTXOs `{4.0, 3.0, 2.0}`) the planner
does not fail: it returns a complete three-step plan, and step 2's change is
`3.8` (`5.9 - 2.0 - 0.1`), not the claimed `2.9`. -/
theorem plan_explicit_pattern_concrete_counterexample :
    plan_explicit_pattern utxosW chgAddrW "dst" [1, 2, 3] (1/10) none = .ok seqW ∧
      changeAmt (seqW.steps.getD 1 ⟨[], [], none, 0, none⟩) = 19/5 ∧
      ¬ changeAmt (seqW.steps.getD 1 ⟨[], [], none, 0, none⟩) = 29/10 := by
  refine ⟨by decide, by decide, by decide⟩

/-- C5 amended: on amounts `[1.0, 2.0, 3.0]` with fee `0.1` and spendable
UTXOs `{4.0, 3.0, 2.0}`, minimum-covering selection stops at `{4.0, 3.0}`
(sum `7.0 ≥ 6.3`); step 1 pays `1.0` with change `5.9`; step 2 pays `2.0`
with change `3.8`; step 3 pays `3.0` with available `3.8` and fee `0.1`,
succeeding with change `0.7`; the plan succeeds with three steps and no
insufficient-funds error. -/
theorem plan_explicit_pattern_concrete_scenario :
    selectUtxosCoveringTotal utxosW (63/10) =
      .ok ([⟨"a", 0, 4, true⟩, ⟨"b", 1, 3, true⟩], 7) ∧
      plan_explicit_pattern utxosW chgAddrW "dst" [1, 2, 3] (1/10) none = .ok seqW := by
  refine ⟨by decide, by decide⟩

theorem quantize8_nonpos {q : ℚ} (h : q ≤ 0) : quantize8 q ≤ 0 := by
  unfold quantize8
  by_cases h0 : 0 ≤ q
  · rw [if_pos h0]
    have hq0 : q = 0 := le_antisymm h h0
    subst hq0
    norm_num
  · rw [if_neg h0]
    have hnum : (0:ℚ) ≤ (⌊-q * 100000000⌋ : ℚ) := by
      have hfl : (0:ℤ) ≤ ⌊-q * 100000000⌋ :=
        Int.floor_nonneg.mpr (by nlinarith [not_le.mp h0])
      exact_mod_cast hfl
    have hdiv : (0:ℚ) ≤ (⌊-q * 100000000⌋ : ℚ) / 100000000 :=
      div_nonneg hnum (by norm_num)
    linarith

/-- Success-case analysis of one `plan_explicit_pattern` step body: the
truncated change either reaches the dust limit and becomes a change output
at the fresh change address, or is positive sub-dust on the final step and
is folded into the step's own value output with the pending change set to 0,
or is zero and the step carries no change output. -/
theorem planStep_cases {to_address : String} {fee : ℚ} {changeAddr : Nat → String}
    {script_plane : Option String} {step_inputs : List PatternInput} {pool : ℚ}
    {amount : ℚ} {is_last : Bool} {cidx : Nat} {step : PatternPlan} {nc : ℚ} {c' : Nat}
    (h : planStep to_address fee changeAddr script_plane step_inputs pool amount
      is_last cidx = .ok (step, nc, c')) :
    (DUST_LIMIT ≤ quantize8 (pool - amount - fee) ∧
      step.change_output = some ⟨changeAddr cidx, quantize8 (pool - amount - fee)⟩ ∧
      step.outputs = [⟨to_address, amount⟩] ∧
      nc = quantize8 (pool - amount - fee) ∧ c' = cidx + 1) ∨
    (0 < quantize8 (pool - amount - fee) ∧ quantize8 (pool - amount - fee) < DUST_LIMIT ∧
      is_last = true ∧ step.change_output = none ∧
      step.outputs = [⟨to_address, quantize8 (amount + quantize8 (pool - amount - fee))⟩] ∧
      nc = 0 ∧ c' = cidx) ∨
    (quantize8 (pool - amount - fee) ≤ 0 ∧ step.change_output = none ∧
      step.outputs = [⟨to_address, amount⟩] ∧
      nc = quantize8 (pool - amount - fee) ∧ c' = cidx) := by
  unfold planStep at h
  split at h
  · exact absurd h (by simp)
  · dsimp only at h
    split at h
    · exact absurd h (by simp)
    · next hno =>
      split at h
      · next hdust =>
        left
        simp only [Except.ok.injEq, Prod.mk.injEq] at h
        obtain ⟨rfl, rfl, rfl⟩ := h
        exact ⟨hdust, rfl, rfl, rfl, rfl⟩
      · next hndust =>
        split at h
        · next hpos =>
          right; left
          simp only [Except.ok.injEq, Prod.mk.injEq] at h
          obtain ⟨rfl, rfl, rfl⟩ := h
          have hlast : is_last = true := by
            by_contra hh
            exact hno ⟨hpos, not_le.mp hndust, by simpa using hh⟩
          exact ⟨hpos, not_le.mp hndust, hlast, rfl, rfl, rfl, rfl⟩
        · next hnpos =>
          right; right
          simp only [Except.ok.injEq, Prod.mk.injEq] at h
          obtain ⟨rfl, rfl, rfl⟩ := h
          exact ⟨not_lt.mp hnpos, rfl, rfl, rfl, rfl⟩

/-- A positive sub-dust change on a non-final step rejects the step (and
hence the whole plan, since the loop propagates the error). -/
theorem planStep_rejects_subdust {to_address : String} {fee : ℚ}
    {changeAddr : Nat → String} {script_plane : Option String}
    {step_inputs : List PatternInput} {pool : ℚ} {amount : ℚ} {cidx : Nat}
    (hpos : 0 < quantize8 (pool - amount - fee))
    (hsub : quantize8 (pool - amount - fee) < DUST_LIMIT) :
    planStep to_address fee changeAddr script_plane step_inputs pool amount false cidx =
      .error "Intermediate chained change would fall below dust limit; adjust fee or amounts" := by
  unfold planStep
  have hfunds : ¬ pool < amount + fee := by
    intro hlt
    have hneg : pool - amount - fee ≤ 0 := by linarith
    have := quantize8_nonpos hneg
    linarith
  rw [if_neg hfunds]
  dsimp only
  rw [if_pos ⟨hpos, hsub, rfl⟩]

theorem planLoop_change_props (to_address : String) (fee : ℚ) (changeAddr : Nat → String)
    (script_plane : Option String) (pattern_inputs : List PatternInput) :
    ∀ (amounts : List ℚ) (first : Bool) (pool : ℚ) (pending : Option ℚ) (cidx : Nat)
      (steps : List PatternPlan) (cidx' : Nat),
      planLoop to_address fee changeAddr script_plane pattern_inputs amounts first pool
        pending cidx = .ok (steps, cidx') →
      (∀ s ∈ steps, changeAmt s = 0 ∨ DUST_LIMIT ≤ changeAmt s) ∧
      (∃ k, steps.filterMap (fun s => s.change_output.map PatternOutput.address)
          = (List.range' cidx k).map changeAddr ∧ cidx' = cidx + k)
  | [], _, _, _, cidx, steps, cidx', h => by
    unfold planLoop at h
    simp only [Except.ok.injEq, Prod.mk.injEq] at h
    obtain ⟨h1, h2⟩ := h
    subst h1
    subst h2
    exact ⟨by simp, 0, by simp, by simp⟩
  | amount :: rest, first, pool, pending, cidx, steps, cidx', h => by
    unfold planLoop at h
    cases hsf : stepFunding pattern_inputs first pool pending with
    | error e => rw [hsf] at h; exact absurd h (by simp)
    | ok insp =>
      obtain ⟨ins, p⟩ := insp
      rw [hsf] at h
      dsimp only at h
      cases hps : planStep to_address fee changeAddr script_plane ins p amount
          rest.isEmpty cidx with
      | error e => rw [hps] at h; exact absurd h (by simp)
      | ok r =>
        obtain ⟨step, nc, cidx2⟩ := r
        rw [hps] at h
        dsimp only at h
        cases hrec : planLoop to_address fee changeAddr script_plane pattern_inputs rest
            false p (some nc) cidx2 with
        | error e => rw [hrec] at h; exact absurd h (by simp)
        | ok sr =>
          obtain ⟨steps2, c2⟩ := sr
          rw [hrec] at h
          dsimp only at h
          simp only [Except.ok.injEq, Prod.mk.injEq] at h
          obtain ⟨rfl, rfl⟩ := h
          have ih := planLoop_change_props to_address fee changeAddr script_plane
            pattern_inputs rest false p (some nc) cidx2 steps2 c2 hrec
          have hcases := planStep_cases hps
          constructor
          · intro s hs
            rcases List.mem_cons.mp hs with rfl | hs2
            · rcases hcases with ⟨hd, hco, _⟩ | ⟨_, _, _, hco, _⟩ | ⟨_, hco, _⟩
              · right
                simp only [changeAmt, hco]
                exact hd
              · left
                simp only [changeAmt, hco]
              · left
                simp only [changeAmt, hco]
            · exact ih.1 s hs2
          · obtain ⟨k, hk, hc2⟩ := ih.2
            rcases hcases with ⟨_, hco, _, _, hcidx⟩ | ⟨_, _, _, hco, _, _, hcidx⟩ |
                ⟨_, hco, _, _, hcidx⟩
            · refine ⟨k + 1, ?_, ?_⟩
              · subst hcidx
                simp only [List.filterMap_cons, hco, Option.map_some]
                rw [List.range'_succ]
                simp [hk]
              · subst hcidx
                omega
            · refine ⟨k, ?_, ?_⟩
              · subst hcidx
                simp only [List.filterMap_cons, hco, Option.map_none]
                exact hk
              · subst hcidx
                exact hc2
            · refine ⟨k, ?_, ?_⟩
              · subst hcidx
                simp only [List.filterMap_cons, hco, Option.map_none]
                exact hk
              · subst hcidx
                exact hc2

theorem plan_explicit_pattern_ok_inner {utxos : List Utxo} {changeAddr : Nat → String}
    {to_address : String} {amounts : List ℚ} {fee : ℚ} {script_plane : Option String}
    {seq : PatternPlanSequence}
    (h : plan_explicit_pattern utxos changeAddr to_address amounts fee script_plane
      = .ok seq) :
    ∃ norm selected total c,
      normalizeAmounts amounts = .ok norm ∧
      selectUtxosCoveringTotal utxos (norm.sum + fee * (norm.length : ℚ))
        = .ok (selected, total) ∧
      planLoop to_address fee changeAddr script_plane
        (selected.map fun u => PatternInput.mk u.txid u.vout u.amount)
        norm true total none 0 = .ok (seq.steps, c) := by
  unfold plan_explicit_pattern at h
  split at h
  · exact absurd h (by simp)
  · cases hn : normalizeAmounts amounts with
    | error e => rw [hn] at h; exact absurd h (by simp)
    | ok norm =>
      rw [hn] at h
      dsimp only at h
      split at h
      · exact absurd h (by simp)
      · split at h
        · exact absurd h (by simp)
        · cases hsel : selectUtxosCoveringTotal utxos (norm.sum + fee * (norm.length : ℚ)) with
          | error e => rw [hsel] at h; exact absurd h (by simp)
          | ok st =>
            obtain ⟨selected, total⟩ := st
            rw [hsel] at h
            dsimp only at h
            cases hpl : planLoop to_address fee changeAddr script_plane
                (selected.map fun u => PatternInput.mk u.txid u.vout u.amount)
                norm true total none 0 with
            | error e => rw [hpl] at h; exact absurd h (by simp)
            | ok sc =>
              obtain ⟨steps, c⟩ := sc
              rw [hpl] at h
              simp only [Except.ok.injEq] at h
              subst h
              exact ⟨norm, selected, total, c, rfl, hsel, hpl⟩

/-- C2: given a successful `plan_explicit_pattern` run: every intermediate
(non-final) step of the returned plan has change equal to 0 or at least the
dust limit; every change output in the plan sits at a freshly obtained
change address (the successive `getrawchangeaddress` results, in order);
and the step body satisfies: when the truncated change
`available - amount - fee` reaches the dust limit it becomes the change
output at the fresh address, a positive sub-dust change can only occur on
the final step, where it is added to the step's own value output and the
pending change is set to 0, a zero change yields no change output, and a
positive sub-dust change on a non-final step rejects the whole plan with a
`PlanningError`. -/
theorem plan_explicit_pattern_change_policy
    (utxos : List Utxo) (changeAddr : Nat → String) (to_address : String)
    (amounts : List ℚ) (fee : ℚ) (script_plane : Option String)
    (seq : PatternPlanSequence)
    (h : plan_explicit_pattern utxos changeAddr to_address amounts fee script_plane
      = .ok seq) :
    (∀ s ∈ seq.steps.dropLast, changeAmt s = 0 ∨ DUST_LIMIT ≤ changeAmt s) ∧
    (∃ k, seq.steps.filterMap (fun s => s.change_output.map PatternOutput.address)
        = (List.range k).map changeAddr) ∧
    (∀ (step_inputs : List PatternInput) (pool amount : ℚ) (is_last : Bool) (cidx : Nat)
        (step : PatternPlan) (nc : ℚ) (c' : Nat),
      planStep to_address fee changeAddr script_plane step_inputs pool amount is_last cidx
          = .ok (step, nc, c') →
      (DUST_LIMIT ≤ quantize8 (pool - amount - fee) →
        step.change_output = some ⟨changeAddr cidx, quantize8 (pool - amount - fee)⟩ ∧
        step.outputs = [⟨to_address, amount⟩]) ∧
      (0 < quantize8 (pool - amount - fee) → quantize8 (pool - amount - fee) < DUST_LIMIT →
        is_last = true ∧ step.change_output = none ∧ nc = 0 ∧
        step.outputs = [⟨to_address, quantize8 (amount + quantize8 (pool - amount - fee))⟩]) ∧
      (quantize8 (pool - amount - fee) ≤ 0 → changeAmt step = 0)) ∧
    (∀ (step_inputs : List PatternInput) (pool amount : ℚ) (cidx : Nat),
      0 < quantize8 (pool - amount - fee) → quantize8 (pool - amount - fee) < DUST_LIMIT →
      planStep to_address fee changeAddr script_plane step_inputs pool amount false cidx
        = .error "Intermediate chained change would fall below dust limit; adjust fee or amounts") := by
  obtain ⟨norm, selected, total, c, hn, hsel, hpl⟩ := plan_explicit_pattern_ok_inner h
  have hprops := planLoop_change_props to_address fee changeAddr script_plane
    (selected.map fun u => PatternInput.mk u.txid u.vout u.amount)
    norm true total none 0 seq.steps c hpl
  have hdustpos : (0:ℚ) < DUST_LIMIT := by unfold DUST_LIMIT; norm_num
  refine ⟨?_, ?_, ?_, ?_⟩
  · intro s hs
    exact hprops.1 s (List.dropLast_subset _ hs)
  · obtain ⟨k, hk, _⟩ := hprops.2
    exact ⟨k, by simpa [List.range_eq_range'] using hk⟩
  · intro step_inputs pool amount is_last cidx step nc c' hstep
    have hcases := planStep_cases hstep
    refine ⟨?_, ?_, ?_⟩
    · intro hd
      rcases hcases with ⟨_, hco, ho, _⟩ | ⟨_, hsub, _⟩ | ⟨hle, _⟩
      · exact ⟨hco, ho⟩
      · exact absurd hd (not_le.mpr hsub)
      · exact absurd hd (not_le.mpr (lt_of_le_of_lt hle hdustpos))
    · intro hp hsub
      rcases hcases with ⟨hd, _⟩ | ⟨_, _, hlast, hco, ho, hnc, _⟩ | ⟨hle, _⟩
      · exact absurd hsub (not_lt.mpr hd)
      · exact ⟨hlast, hco, hnc, ho⟩
      · exact absurd hp (not_lt.mpr hle)
    · intro hle
      rcases hcases with ⟨hd, _⟩ | ⟨hp, _⟩ | ⟨_, hco, _⟩
      · exact absurd (lt_of_lt_of_le hdustpos hd) (not_lt.mpr hle)
      · exact absurd hp (not_lt.mpr hle)
      · simp only [changeAmt, hco]
  · intro step_inputs pool amount cidx hp hsub
    exact planStep_rejects_subdust hp hsub

/-- Witness for the change-policy theorem at the concrete scenario: the
first (intermediate) step of the returned plan has change `5.9 ≥ dust`. -/
theorem plan_explicit_pattern_change_policy_witness :
    changeAmt ⟨[⟨"a", 0, 4⟩, ⟨"b", 1, 3⟩], [⟨"dst", 1⟩],
        some ⟨"chg0", 59/10⟩, 1/10, none⟩ = 0 ∨
      DUST_LIMIT ≤ changeAmt ⟨[⟨"a", 0, 4⟩, ⟨"b", 1, 3⟩], [⟨"dst", 1⟩],
        some ⟨"chg0", 59/10⟩, 1/10, none⟩ :=
  (plan_explicit_pattern_change_policy utxosW chgAddrW "dst" [1, 2, 3] (1/10) none seqW
    (by decide)).1 _ (by decide)

/-- `AutomationFrame` dataclass from `planner.py`, restricted to the fields
`plan_chain` consults (`outputs`, `delta`, `sigma` are not read there; the
opaque script-plane tag is an optional string). -/
structure AutomationFrame where
  value : ℚ
  fee : Option ℚ
  inputs : Option Int
  script_plane : Option String
  deriving DecidableEq

/-- The `AutomationSymbol` fields consulted by `plan_chain`. -/
structure AutomationSymbol where
  name : String
  fee : ℚ
  inputs : Int
  frames : List AutomationFrame
  script_plane : Option String
  deriving DecidableEq

/-- `PlannedTx` dataclass from `planner.py`. -/
structure PlannedTx where
  inputs : List PatternInput
  to_output : PatternOutput
  change_output : Option PatternOutput
  fee : ℚ
  script_plane : Option String
  deriving DecidableEq

/-- `PlannedChain` dataclass from `planner.py`. -/
structure PlannedChain where
  to_address : String
  transactions : List PlannedTx
  initial_utxos : List PatternInput
  block_target : Option Int
  enforce_block_target : Bool
  deriving DecidableEq

/-- Frame normalization at the head of `plan_chain`: quantize the value and
the fee (falling back to the symbol fee when the frame fee is absent or
zero — Python `frame.fee or symbol.fee` treats a zero fee as absent); the
per-frame script plane is not copied over (the source omits it when
rebuilding the frame). -/
def normalizeFrame (symbolFee : ℚ) (f : AutomationFrame) : AutomationFrame :=
  { value := quantize8 f.value
    fee := some (quantize8 (match f.fee with
      | some x => if x = 0 then symbolFee else x
      | none => symbolFee))
    inputs := f.inputs
    script_plane := none }

/-- The effective fee of a normalized frame (always present there). -/
def frameFee (f : AutomationFrame) : ℚ := f.fee.getD 0

/-- `_select_utxos` from `planner.py` (exact-N mode): filter to spendable,
require at least `required_inputs` of them, take the `required_inputs`
largest, require their total to cover the minimum. -/
def selectUtxosExact (utxos : List Utxo) (required_inputs : Int) (minimum_total : ℚ) :
    Except String (List Utxo × ℚ) :=
  let spendable := utxos.filter (·.spendable)
  if (spendable.length : Int) < required_inputs then
    .error "Wallet has fewer spendable UTXOs than required"
  else
    let selected := (sortDescAmount spendable).take required_inputs.toNat
    let total := (selected.map Utxo.amount).sum
    if total < minimum_total then
      .error "Selected inputs total below required minimum to cover symbol value and fee"
    else .ok (selected, total)

/-- `sum(next_frame.value + next_frame.fee for next_frame in
normalized_frames[index + 1:])`: what the frames after `index` still
require. -/
def remainingAfter (frames : List AutomationFrame) (index : Nat) : ℚ :=
  ((frames.drop (index + 1)).map (fun f => f.value + frameFee f)).sum

/-- Python `frame.script_plane or symbol.script_plane`. -/
def orElseOpt (a b : Option String) : Option String :=
  match a with
  | some s => some s
  | none => b

/-- The funding source of one `plan_chain` frame: the selected UTXOs on the
first frame (`index == 0`); later frames consume solely the previous
frame's change through the sentinel input at `vout = 1`. -/
def chainFunding (selectedInputs : List PatternInput) (idx : Nat)
    (previous_change : Option ℚ) : Except String (List PatternInput) :=
  if idx = 0 then .ok selectedInputs
  else
    match previous_change with
    | none => .error "Previous change amount missing for chained frame"
    | some p => .ok [PatternInput.mk PREVIOUS_CHANGE_SENTINEL 1 p]

/-- The per-frame loop of `plan_chain`.  `idx` is the enumeration index,
`available_pool` the funds reaching this frame, `previous_change` the prior
frame's change when one was created, `cidx` the fresh-change-address
counter.  Returns the planned transactions and the next counter. -/
def chainLoop (to_address : String) (symbol_sp : Option String) (changeAddr : Nat → String)
    (selectedInputs : List PatternInput) :
    List AutomationFrame → Nat → ℚ → Option ℚ → Nat → Except String (List PlannedTx × Nat)
  | [], _, _, _, cidx => .ok ([], cidx)
  | frame :: rest, idx, available_pool, previous_change, cidx =>
    let fee := frameFee frame
    if fee < 0 then .error "Fee must be non-negative for chained plans"
    else if frame.value ≤ 0 then .error "Each chained frame must send a positive value"
    else
      let remaining_required := (rest.map (fun f => f.value + frameFee f)).sum
      if 0 < idx ∧ ¬ (frame.inputs = none ∨ frame.inputs = some 1) then
        .error "Only the first chained frame may specify multiple inputs"
      else
        match chainFunding selectedInputs idx previous_change with
        | .error e => .error e
        | .ok inputs =>
          if available_pool < frame.value + fee then
            .error "Insufficient funds to satisfy chained plan"
          else
            let change_amount := quantize8 (available_pool - frame.value - fee)
            if rest.isEmpty = false ∧ change_amount < DUST_LIMIT then
              .error "Intermediate change would fall below dust limit"
            else if change_amount < remaining_required then
              .error "Change does not cover downstream frames; adjust fees or values"
            else
              let tx_sp := orElseOpt frame.script_plane symbol_sp
              if DUST_LIMIT ≤ change_amount then
                match chainLoop to_address symbol_sp changeAddr selectedInputs rest
                    (idx + 1) change_amount (some change_amount) (cidx + 1) with
                | .error e => .error e
                | .ok (txs, c') =>
                  .ok (⟨inputs, ⟨to_address, frame.value⟩,
                        some ⟨changeAddr cidx, change_amount⟩, fee, tx_sp⟩ :: txs, c')
              else
                let to_amount :=
                  if 0 < change_amount then quantize8 (frame.value + change_amount)
                  else frame.value
                match chainLoop to_address symbol_sp changeAddr selectedInputs rest
                    (idx + 1) change_amount none cidx with
                | .error e => .error e
                | .ok (txs, c') =>
                  .ok (⟨inputs, ⟨to_address, to_amount⟩, none, fee, tx_sp⟩ :: txs, c')

/-- The frame list `plan_chain` works on: the symbol's chained frames,
truncated by `max_frames` when given. -/
def chainFrames (symbol : AutomationSymbol) (max_frames : Option Nat) :
    List AutomationFrame :=
  match max_frames with
  | some m => symbol.frames.take m
  | none => symbol.frames

/-- `normalized_frames[0].inputs or symbol.inputs` (Python truthiness: a
zero or absent first-frame input count falls back to the symbol's). -/
def chainRequiredInputs (symbol : AutomationSymbol)
    (normalized_frames : List AutomationFrame) : Int :=
  match normalized_frames.head?.map AutomationFrame.inputs with
  | some (some n) => if n = 0 then symbol.inputs else n
  | _ => symbol.inputs

/-- `SymbolPlanner.plan_chain` from `planner.py`.  `rpcUtxos` embeds
`rpc.listunspent`, `changeAddr` the successive `getrawchangeaddress`
results, `newAddr` the `getnewaddress` result used when no receiver is
given, `current_height` the `getblockcount` result. -/
def plan_chain (rpcUtxos : List Utxo) (changeAddr : Nat → String) (newAddr : String)
    (current_height : Int) (symbol : AutomationSymbol) (receiver : Option String)
    (max_frames : Option Nat) (block_target : Option Int)
    (enforce_block_target : Bool) : Except String PlannedChain :=
  if symbol.frames.isEmpty then .error "Symbol does not define chained frames"
  else
    let frames := chainFrames symbol max_frames
    if frames.isEmpty then .error "max_frames truncated the chain to zero frames"
    else
      let to_address := receiver.getD newAddr
      let normalized_frames := frames.map (normalizeFrame symbol.fee)
      let required_inputs : Int := chainRequiredInputs symbol normalized_frames
      if required_inputs ≤ 0 then
        .error "Chained plan requires at least one input in the first frame"
      else if block_target.any (fun bt => decide (bt ≤ current_height)) then
        .error "Block target must be greater than the current height"
      else
        let enforce := if block_target.isSome then true else enforce_block_target
        let total_required := (normalized_frames.map (fun f => f.value + frameFee f)).sum
        match selectUtxosExact rpcUtxos required_inputs total_required with
        | .error e => .error e
        | .ok (selected, total) =>
          let selectedInputs := selected.map fun u => PatternInput.mk u.txid u.vout u.amount
          match chainLoop to_address symbol.script_plane changeAddr selectedInputs
              normalized_frames 0 total none 0 with
          | .error e => .error e
          | .ok (txs, _) =>
            let funding_inputs := selectedInputs.filter
              (fun item => item.txid ≠ PREVIOUS_CHANGE_SENTINEL)
            .ok ⟨to_address, txs, funding_inputs, block_target, enforce⟩

/-- The change cascade of `plan_chain`, recomputed: each frame's truncated
change becomes the pool available to the next frame. -/
def chainCascade : List AutomationFrame → ℚ → List ℚ
  | [], _ => []
  | f :: rest, pool =>
    let c := quantize8 (pool - f.value - frameFee f)
    c :: chainCascade rest c

theorem chainCascade_length : ∀ (l : List AutomationFrame) (pool : ℚ),
    (chainCascade l pool).length = l.length
  | [], _ => rfl
  | f :: rest, pool => by
    unfold chainCascade
    simp [chainCascade_length rest]

theorem getLast?_cons_ne_nil {α : Type} (a : α) {l : List α} (h : l ≠ []) :
    (a :: l).getLast? = l.getLast? := by
  cases l with
  | nil => exact absurd rfl h
  | cons b t => exact List.getLast?_cons_cons

theorem chainLoop_ok_spec (to_address : String) (symbol_sp : Option String)
    (changeAddr : Nat → String) (selectedInputs : List PatternInput) :
    ∀ (rem : List AutomationFrame) (idx : Nat) (pool : ℚ) (prev : Option ℚ) (cidx : Nat)
      (txs : List PlannedTx) (cidx' : Nat),
      chainLoop to_address symbol_sp changeAddr selectedInputs rem idx pool prev cidx
        = .ok (txs, cidx') →
      txs.length = rem.length ∧
      (∀ i, i < rem.length →
        remainingAfter rem i ≤ (chainCascade rem pool).getD i 0 ∧
        (i + 1 < rem.length → DUST_LIMIT ≤ (chainCascade rem pool).getD i 0)) ∧
      (∀ cl fl tl, (chainCascade rem pool).getLast? = some cl →
        rem.getLast? = some fl → txs.getLast? = some tl →
        0 < cl → cl < DUST_LIMIT →
        tl.change_output = none ∧
        tl.to_output = ⟨to_address, quantize8 (fl.value + cl)⟩)
  | [], idx, pool, prev, cidx, txs, cidx', h => by
    unfold chainLoop at h
    simp only [Except.ok.injEq, Prod.mk.injEq] at h
    obtain ⟨h1, _⟩ := h
    subst h1
    refine ⟨rfl, by simp, ?_⟩
    intro cl fl tl hcl
    simp [chainCascade] at hcl
  | frame :: rest, idx, pool, prev, cidx, txs, cidx', h => by
    unfold chainLoop at h
    dsimp only at h
    split at h
    · exact absurd h (by simp)
    · split at h
      · exact absurd h (by simp)
      · split at h
        · exact absurd h (by simp)
        · cases hinp : chainFunding selectedInputs idx prev with
          | error e => rw [hinp] at h; exact absurd h (by simp)
          | ok inputs =>
            rw [hinp] at h
            dsimp only at h
            split at h
            · exact absurd h (by simp)
            · next hfunds =>
              split at h
              · exact absurd h (by simp)
              · next hdustchk =>
                split at h
                · exact absurd h (by simp)
                · next hrem =>
                  have hremle : (rest.map (fun f => f.value + frameFee f)).sum ≤
                      quantize8 (pool - frame.value - frameFee frame) := not_lt.mp hrem
                  have hcas0 : (chainCascade (frame :: rest) pool).getD 0 0 =
                      quantize8 (pool - frame.value - frameFee frame) := rfl
                  have hcasS : ∀ i, (chainCascade (frame :: rest) pool).getD (i + 1) 0 =
                      (chainCascade rest
                        (quantize8 (pool - frame.value - frameFee frame))).getD i 0 := by
                    intro i
                    rfl
                  split at h
                  · next hdust =>
                    cases hrec : chainLoop to_address symbol_sp changeAddr selectedInputs
                        rest (idx + 1) (quantize8 (pool - frame.value - frameFee frame))
                        (some (quantize8 (pool - frame.value - frameFee frame)))
                        (cidx + 1) with
                    | error e => rw [hrec] at h; exact absurd h (by simp)
                    | ok r =>
                      obtain ⟨txs2, c2⟩ := r
                      rw [hrec] at h
                      dsimp only at h
                      simp only [Except.ok.injEq, Prod.mk.injEq] at h
                      obtain ⟨rfl, rfl⟩ := h
                      have ih := chainLoop_ok_spec to_address symbol_sp changeAddr
                        selectedInputs rest (idx + 1)
                        (quantize8 (pool - frame.value - frameFee frame))
                        (some (quantize8 (pool - frame.value - frameFee frame)))
                        (cidx + 1) txs2 c2 hrec
                      refine ⟨by simp [ih.1], ?_, ?_⟩
                      · intro i hi
                        cases i with
                        | zero =>
                          refine ⟨by rw [hcas0]; exact hremle, fun _ => ?_⟩
                          rw [hcas0]
                          exact hdust
                        | succ j =>
                          rw [hcasS j]
                          have hj : j < rest.length := by
                            simpa using hi
                          have := ih.2.1 j hj
                          refine ⟨?_, fun hj1 => ?_⟩
                          · simpa [remainingAfter] using this.1
                          · exact this.2 (by simpa using hj1)
                      · intro cl fl tl hcl hfl htl hpos hsub
                        cases rest with
                        | nil =>
                          simp only [chainCascade, List.getLast?_singleton,
                            Option.some.injEq] at hcl
                          subst hcl
                          exact absurd hdust (not_le.mpr hsub)
                        | cons r rs =>
                          have hlen2 : txs2.length = (r :: rs).length := ih.1
                          cases htxs2 : txs2 with
                          | nil => rw [htxs2] at hlen2; simp at hlen2
                          | cons t ts =>
                            subst htxs2
                            rw [List.getLast?_cons_cons] at htl
                            have hcl' : (chainCascade (r :: rs)
                                (quantize8 (pool - frame.value - frameFee frame))).getLast?
                                  = some cl := by
                              rw [show chainCascade (frame :: r :: rs) pool =
                                quantize8 (pool - frame.value - frameFee frame) ::
                                  chainCascade (r :: rs)
                                    (quantize8 (pool - frame.value - frameFee frame)) from rfl,
                                getLast?_cons_ne_nil _ (List.ne_nil_of_length_pos
                                  (by rw [chainCascade_length]; simp))] at hcl
                              exact hcl
                            rw [List.getLast?_cons_cons] at hfl
                            exact ih.2.2 cl fl tl hcl' hfl htl hpos hsub
                  · next hndust =>
                    cases hrec : chainLoop to_address symbol_sp changeAddr selectedInputs
                        rest (idx + 1) (quantize8 (pool - frame.value - frameFee frame))
                        none cidx with
                    | error e => rw [hrec] at h; exact absurd h (by simp)
                    | ok r =>
                      obtain ⟨txs2, c2⟩ := r
                      rw [hrec] at h
                      dsimp only at h
                      simp only [Except.ok.injEq, Prod.mk.injEq] at h
                      obtain ⟨rfl, rfl⟩ := h
                      have ih := chainLoop_ok_spec to_address symbol_sp changeAddr
                        selectedInputs rest (idx + 1)
                        (quantize8 (pool - frame.value - frameFee frame)) none cidx txs2 c2 hrec
                      refine ⟨by simp [ih.1], ?_, ?_⟩
                      · intro i hi
                        cases i with
                        | zero =>
                          refine ⟨by rw [hcas0]; exact hremle, fun h1 => ?_⟩
                          exfalso
                          have hrest : rest ≠ [] := by
                            intro hr
                            rw [hr] at h1
                            simp at h1
                          exact hdustchk ⟨by simpa using hrest,
                            not_le.mp hndust⟩
                        | succ j =>
                          rw [hcasS j]
                          have hj : j < rest.length := by simpa using hi
                          have := ih.2.1 j hj
                          refine ⟨?_, fun hj1 => ?_⟩
                          · simpa [remainingAfter] using this.1
                          · exact this.2 (by simpa using hj1)
                      · intro cl fl tl hcl hfl htl hpos hsub
                        cases rest with
                        | nil =>
                          simp only [chainCascade, List.getLast?_singleton,
                            Option.some.injEq] at hcl
                          have hfl' : fl = frame := by
                            simpa using hfl.symm
                          have htxs2 : txs2 = [] := by
                            have := ih.1
                            simpa using List.eq_nil_of_length_eq_zero (by simpa using this)
                          subst htxs2
                          have htl' : tl = ⟨inputs, ⟨to_address,
                              if 0 < quantize8 (pool - frame.value - frameFee frame) then
                                quantize8 (frame.value +
                                  quantize8 (pool - frame.value - frameFee frame))
                              else frame.value⟩, none, frameFee frame,
                              orElseOpt frame.script_plane symbol_sp⟩ := by
                            simpa using htl.symm
                          subst htl'
                          subst hcl
                          subst hfl'
                          refine ⟨rfl, ?_⟩
                          simp only [if_pos hpos]
                        | cons r rs =>
                          have hlen2 : txs2.length = (r :: rs).length := ih.1
                          cases htxs2 : txs2 with
                          | nil => rw [htxs2] at hlen2; simp at hlen2
                          | cons t ts =>
                            subst htxs2
                            rw [List.getLast?_cons_cons] at htl
                            have hcl' : (chainCascade (r :: rs)
                                (quantize8 (pool - frame.value - frameFee frame))).getLast?
                                  = some cl := by
                              rw [show chainCascade (frame :: r :: rs) pool =
                                quantize8 (pool - frame.value - frameFee frame) ::
                                  chainCascade (r :: rs)
                                    (quantize8 (pool - frame.value - frameFee frame)) from rfl,
                                getLast?_cons_ne_nil _ (List.ne_nil_of_length_pos
                                  (by rw [chainCascade_length]; simp))] at hcl
                              exact hcl
                            rw [List.getLast?_cons_cons] at hfl
                            exact ih.2.2 cl fl tl hcl' hfl htl hpos hsub

theorem plan_chain_ok_inner {rpcUtxos : List Utxo} {changeAddr : Nat → String}
    {newAddr : String} {current_height : Int} {symbol : AutomationSymbol}
    {receiver : Option String} {max_frames : Option Nat} {block_target : Option Int}
    {enforce_block_target : Bool} {chain : PlannedChain}
    (h : plan_chain rpcUtxos changeAddr newAddr current_height symbol receiver
      max_frames block_target enforce_block_target = .ok chain) :
    ∃ selected total c,
      selectUtxosExact rpcUtxos
        (chainRequiredInputs symbol
          ((chainFrames symbol max_frames).map (normalizeFrame symbol.fee)))
        ((((chainFrames symbol max_frames).map (normalizeFrame symbol.fee)).map
          (fun f => f.value + frameFee f)).sum) = .ok (selected, total) ∧
      chainLoop (receiver.getD newAddr) symbol.script_plane changeAddr
        (selected.map fun u => PatternInput.mk u.txid u.vout u.amount)
        ((chainFrames symbol max_frames).map (normalizeFrame symbol.fee))
        0 total none 0 = .ok (chain.transactions, c) ∧
      chain.to_address = receiver.getD newAddr := by
  unfold plan_chain at h
  split at h
  · exact absurd h (by simp)
  · dsimp only at h
    split at h
    · exact absurd h (by simp)
    · split at h
      · exact absurd h (by simp)
      · split at h
        · exact absurd h (by simp)
        · cases hsel : selectUtxosExact rpcUtxos
              (chainRequiredInputs symbol
                ((chainFrames symbol max_frames).map (normalizeFrame symbol.fee)))
              ((((chainFrames symbol max_frames).map (normalizeFrame symbol.fee)).map
                (fun f => f.value + frameFee f)).sum) with
          | error e => rw [hsel] at h; exact absurd h (by simp)
          | ok st =>
            obtain ⟨selected, total⟩ := st
            rw [hsel] at h
            dsimp only at h
            cases hloop : chainLoop (receiver.getD newAddr) symbol.script_plane changeAddr
                (selected.map fun u => PatternInput.mk u.txid u.vout u.amount)
                ((chainFrames symbol max_frames).map (normalizeFrame symbol.fee))
                0 total none 0 with
            | error e => rw [hloop] at h; exact absurd h (by simp)
            | ok tc =>
              obtain ⟨txs, c⟩ := tc
              rw [hloop] at h
              dsimp only at h
              simp only [Except.ok.injEq] at h
              subst h
              exact ⟨selected, total, c, rfl, hloop, rfl⟩

/-- C3: for a `plan_chain` run that returns a `PlannedChain`: the chain has
one transaction per (truncated, normalized) frame; for every frame index,
`remaining_required` — by definition the sum of `value + fee` over all later
frames — is covered by that frame's truncated change, and every non-final
frame's change reaches the dust limit (a run violating either condition
returns a `PlanningError` instead, so no `PlannedChain` is produced); and a
final frame whose change is positive but sub-dust folds the change into its
own value output and creates no change output. -/
theorem plan_chain_cascade_guard
    (rpcUtxos : List Utxo) (changeAddr : Nat → String) (newAddr : String)
    (current_height : Int) (symbol : AutomationSymbol) (receiver : Option String)
    (max_frames : Option Nat) (block_target : Option Int)
    (enforce_block_target : Bool) (chain : PlannedChain)
    (normalized : List AutomationFrame) (selected : List Utxo) (total : ℚ)
    (hnorm : normalized = (chainFrames symbol max_frames).map (normalizeFrame symbol.fee))
    (hsel : selectUtxosExact rpcUtxos (chainRequiredInputs symbol normalized)
      ((normalized.map (fun f => f.value + frameFee f)).sum) = .ok (selected, total))
    (h : plan_chain rpcUtxos changeAddr newAddr current_height symbol receiver
      max_frames block_target enforce_block_target = .ok chain) :
    chain.transactions.length = normalized.length ∧
    (∀ i, remainingAfter normalized i =
      ((normalized.drop (i + 1)).map (fun f => f.value + frameFee f)).sum) ∧
    (∀ i, i < normalized.length →
      remainingAfter normalized i ≤ (chainCascade normalized total).getD i 0 ∧
      (i + 1 < normalized.length →
        DUST_LIMIT ≤ (chainCascade normalized total).getD i 0)) ∧
    (∀ cl fl tl, (chainCascade normalized total).getLast? = some cl →
      normalized.getLast? = some fl → chain.transactions.getLast? = some tl →
      0 < cl → cl < DUST_LIMIT →
      tl.change_output = none ∧
      tl.to_output = ⟨chain.to_address, quantize8 (fl.value + cl)⟩) := by
  obtain ⟨selected', total', c, hsel', hloop, haddr⟩ := plan_chain_ok_inner h
  subst hnorm
  rw [hsel] at hsel'
  simp only [Except.ok.injEq, Prod.mk.injEq] at hsel'
  obtain ⟨rfl, rfl⟩ := hsel'
  have hspec := chainLoop_ok_spec (receiver.getD newAddr) symbol.script_plane changeAddr
    (selected.map fun u => PatternInput.mk u.txid u.vout u.amount)
    ((chainFrames symbol max_frames).map (normalizeFrame symbol.fee))
    0 total none 0 chain.transactions c hloop
  refine ⟨hspec.1, fun i => rfl, hspec.2.1, ?_⟩
  intro cl fl tl hcl hfl htl hpos hsub
  have := hspec.2.2 cl fl tl hcl hfl htl hpos hsub
  rw [haddr]
  exact this

/-- A two-frame chained symbol (values 2 and 1.5, per-frame fee 0.1, one
input each), matching the repository's chained-plan test fixture. -/
def symW : AutomationSymbol :=
  ⟨"CHAIN_SINGLE", 1/10, 1,
    [⟨2, some (1/10), some 1, none⟩, ⟨3/2, some (1/10), some 1, none⟩], none⟩

/-- A single spendable 9.0 funding UTXO. -/
def soloUtxos : List Utxo := [⟨"solo", 0, 9, true⟩]

/-- The chain `plan_chain` produces from `symW` funded by `soloUtxos`. -/
def chainW : PlannedChain :=
  ⟨"dgb1target",
    [⟨[⟨"solo", 0, 9⟩], ⟨"dgb1target", 2⟩, some ⟨"chg0", 69/10⟩, 1/10, none⟩,
     ⟨[⟨PREVIOUS_CHANGE_SENTINEL, 1, 69/10⟩], ⟨"dgb1target", 3/2⟩,
       some ⟨"chg1", 53/10⟩, 1/10, none⟩],
    [⟨"solo", 0, 9⟩], none, false⟩

/-- The normalized frames of `symW`. -/
def normW : List AutomationFrame := (chainFrames symW none).map (normalizeFrame symW.fee)

/-- Witness for the chain cascade theorem at the concrete two-frame chain:
frame 0's change (6.9) covers the remaining requirement (1.6) and reaches
the dust limit. -/
theorem plan_chain_cascade_guard_witness :
    remainingAfter normW 0 ≤ (chainCascade normW 9).getD 0 0 ∧
      DUST_LIMIT ≤ (chainCascade normW 9).getD 0 0 := by
  have happ := plan_chain_cascade_guard soloUtxos chgAddrW "newaddr" 100 symW
    (some "dgb1target") none none false chainW normW
    [⟨"solo", 0, 9, true⟩] 9 (by decide) (by decide) (by decide)
  exact ⟨(happ.2.2.1 0 (by decide)).1, (happ.2.2.1 0 (by decide)).2 (by decide)⟩

instance : Inhabited PatternOutput := ⟨⟨"", 0⟩⟩

instance : Inhabited PatternInput := ⟨⟨"", 0, 0⟩⟩

instance : Inhabited PatternPlan := ⟨⟨[], [], none, 0, none⟩⟩

/-- One invocation of the external build-and-broadcast collaborator: a
per-step `send_payment_tx` call (resolved inputs, ordered outputs, fee,
OP_RETURN payload, script-plane tag) or a single `send_multi_output_tx`
fan-out call. -/
inductive BuilderCall where
  | payment (inputs : List (String × Nat)) (outputs : List (String × ℚ)) (fee : ℚ)
      (payload : Option String) (script_plane : Option String)
  | fanout (to_address : String) (amounts : List ℚ) (fee : ℚ)
      (payload : Option String) (script_plane : Option String)
  deriving DecidableEq

instance : Inhabited BuilderCall := ⟨.payment [] [] 0 none none⟩

/-- `_resolve_chained_inputs` from `planner.py`: map each input to its
`(txid, vout)` pair, resolving the sentinel to the previous step's recorded
change reference; fail on a sentinel with no recorded reference. -/
def resolveChainedInputs : List PatternInput → Option (String × Nat) →
    Except String (List (String × Nat))
  | [], _ => .ok []
  | entry :: rest, prev =>
    if entry.txid = PREVIOUS_CHANGE_SENTINEL then
      match prev with
      | none => .error "Chained plan referenced previous change output before it was created"
      | some pr =>
        match resolveChainedInputs rest prev with
        | .error e => .error e
        | .ok tl => .ok (pr :: tl)
    else
      match resolveChainedInputs rest prev with
      | .error e => .error e
      | .ok tl => .ok ((entry.txid, entry.vout) :: tl)

/-- Python `dict`/`OrderedDict` assignment `d[k] = v`: overwrite in place
when the key exists, else append. -/
def dictSet (l : List (String × ℚ)) (k : String) (v : ℚ) : List (String × ℚ) :=
  if l.any (fun p => p.1 == k) then l.map (fun p => if p.1 = k then (k, v) else p)
  else l ++ [(k, v)]

/-- Python `d.get(k)`. -/
def dictGet (l : List (String × ℚ)) (k : String) : Option ℚ :=
  (l.find? (fun p => p.1 == k)).map Prod.snd

/-- The `OrderedDict` of a step's value outputs (`ordered_outputs[output.address]
= float(output.amount)` per output, in order). -/
def orderedOutputs (outs : List PatternOutput) : List (String × ℚ) :=
  outs.foldl (fun d o => dictSet d o.address o.amount) []

/-- The outputs object handed to the builder for one chained step: the value
outputs plus the change output when present. -/
def builtOutputs (step : PatternPlan) : List (String × ℚ) :=
  match step.change_output with
  | some co => dictSet (orderedOutputs step.outputs) co.address co.amount
  | none => orderedOutputs step.outputs

/-- Python truthiness of an optional payload string (`[payload] if payload
else None`): `None` and the empty string count as absent. -/
def truthyStr : Option String → Option String
  | some s => if s = "" then none else some s
  | none => none

/-- `op_returns[index]` (0-based) when payloads were supplied. -/
def payloadAt (op_returns : Option (List (Option String))) (i : Nat) : Option String :=
  match op_returns with
  | some l => l.getD i none
  | none => none

/-- The per-step loop of `broadcast_pattern_plan` (chained mode).  `txidOf k`
is the txid the collaborator returns for the `k`-th broadcast; `gate idx txid`
embeds `_wait_for_confirmations` (`false` = the confirmation wait exceeded
`max_wait_seconds` and raises).  Returns the collaborator-call trace (kept
also on error) and the txid list or the error. -/
def broadcastLoop (txidOf : Nat → String) (gate : Nat → String → Bool)
    (payloads : Nat → Option String) (min_confirmations_between_steps : Nat) :
    List PatternPlan → Nat → Option (String × Nat) →
    List BuilderCall × Except String (List String)
  | [], _, _ => ([], .ok [])
  | step :: rest, idx, prev =>
    match resolveChainedInputs step.inputs prev with
    | .error e => ([], .error e)
    | .ok rpc_inputs =>
      let payload := truthyStr (payloads idx)
      let txid := txidOf idx
      let call := BuilderCall.payment rpc_inputs (builtOutputs step) step.fee payload
        step.script_plane
      let prev' : Option (String × Nat) :=
        match step.change_output with
        | some _ => some (txid, (orderedOutputs step.outputs).length)
        | none => none
      if rest.isEmpty then ([call], .ok [txid])
      else
        match prev' with
        | none => ([call], .error "Chained plan ended before downstream steps could be funded")
        | some pr =>
          if min_confirmations_between_steps > 0 ∧ gate idx txid = false then
            ([call], .error "confirmation wait exceeded the max-wait ceiling")
          else
            let r := broadcastLoop txidOf gate payloads min_confirmations_between_steps
              rest (idx + 1) (some pr)
            (call :: r.1, r.2.map (fun tl => txid :: tl))

/-- Stable insertion step for the ascending sort of
`UTXOManager.select_utxos`. -/
def insertAscUtxo (u : Utxo) : List Utxo → List Utxo
  | [] => [u]
  | v :: rest => if u.amount ≤ v.amount then u :: v :: rest else v :: insertAscUtxo u rest

/-- `UTXOManager.select_utxos` from `tx_builder.py`: no spendable filter,
ascending stable sort by amount, accumulate until `target + fee` is covered.
Returns the selection and the change `total - target - fee`. -/
def builder_select_utxos (utxos : List Utxo) (target_amount fee : ℚ) :
    Except String (List Utxo × ℚ) :=
  if utxos.isEmpty then .error "Wallet has no spendable UTXOs"
  else
    let needed := target_amount + fee
    let sorted := utxos.foldr insertAscUtxo []
    let r := coverLoop needed sorted 0
    if r.2 < needed then .error "Insufficient funds"
    else .ok (r.1, r.2 - target_amount - fee)

/-- `round(x, 8)` on a float value (embedded as an exact rational): round
half to even at eight fractional digits. -/
def roundHalfEven8 (q : ℚ) : ℚ :=
  let s := q * 100000000
  let f := ⌊s⌋
  let n := if s - f < 1/2 then f
    else if (1:ℚ)/2 < s - f then f + 1
    else if f % 2 = 0 then f else f + 1
  (n : ℚ) / 100000000

/-- `TransactionBuilder.send_multi_output_tx` from `tx_builder.py`, reduced
to the value outputs of the transaction it builds: all amounts are
aggregated into a single dictionary entry for `to_address` (a `dict` keyed
by address), and the change is appended at a new wallet address when it
exceeds `1e-8`. -/
def send_multi_output_tx (walletUtxos : List Utxo) (newAddr : String)
    (to_address : String) (amounts : List ℚ) (fee : ℚ) :
    Except String (List (String × ℚ)) :=
  if amounts.isEmpty then
    .error "At least one amount is required for multi-output transactions"
  else
    let total_output := amounts.sum
    match builder_select_utxos walletUtxos total_output fee with
    | .error e => .error e
    | .ok sc =>
      let change_amount := sc.2
      let aggregated := amounts.foldl
        (fun d a => dictSet d to_address (roundHalfEven8 ((dictGet d to_address).getD 0 + a))) []
      let aggregated :=
        if change_amount > 1/100000000 then
          dictSet aggregated newAddr (roundHalfEven8 change_amount)
        else aggregated
      .ok aggregated

/-- `broadcast_pattern_plan` from `planner.py`.  The wallet node and builder
are embedded as the txid oracle, the confirmation gate, the wallet UTXO
list (for the fan-out builder's own selection) and the fresh change address
used by the fan-out builder.  Returns the collaborator-call trace together
with the txid list or the error. -/
def broadcast_pattern_plan (txidOf : Nat → String) (gate : Nat → String → Bool)
    (walletUtxos : List Utxo) (newAddr : String) (plan : PatternPlanSequence)
    (op_returns : Option (List (Option String)))
    (min_confirmations_between_steps : Nat) (single_tx : Bool) :
    List BuilderCall × Except String (List String) :=
  if op_returns.any (fun l => decide (l.length ≠ plan.steps.length)) then
    ([], .error "OP_RETURN payload count must match the number of transactions")
  else if single_tx then
    if plan.steps.isEmpty then ([], .ok [])
    else
      let primary_outputs := plan.steps.map (fun s => s.outputs.headI)
      let addrs := (primary_outputs.map PatternOutput.address).dedup
      if addrs.length ≠ 1 then
        ([], .error "Single fan-out mode requires a consistent destination address")
      else
        let to_address := addrs.headI
        let fanout_fee := (plan.steps.headI).fee
        if plan.steps.any (fun s => decide (s.fee ≠ fanout_fee)) then
          ([], .error "Single fan-out mode requires a uniform fee across frames")
        else
          let planes := (plan.steps.map PatternPlan.script_plane).dedup
          if planes.length > 1 then
            ([], .error "Single fan-out mode does not support mixed script planes")
          else
            let script_plane := if planes.length = 1 then planes.headI else none
            let non_null_payloads := match op_returns with
              | some l => l.filterMap truthyStr
              | none => []
            if non_null_payloads.length > 1 then
              ([], .error "Single fan-out mode supports at most one OP_RETURN payload across frames")
            else
              let payload := non_null_payloads.head?
              let amounts := primary_outputs.map PatternOutput.amount
              let call := BuilderCall.fanout to_address amounts fanout_fee payload script_plane
              match send_multi_output_tx walletUtxos newAddr to_address amounts fanout_fee with
              | .error e => ([call], .error e)
              | .ok _ => ([call], .ok [txidOf 0])
  else
    broadcastLoop txidOf gate (payloadAt op_returns) min_confirmations_between_steps
      plan.steps 0 none

theorem broadcastLoop_ok_spec (txidOf : Nat → String) (gate : Nat → String → Bool)
    (payloads : Nat → Option String) (minc : Nat) :
    ∀ (steps : List PatternPlan) (idx : Nat) (prev : Option (String × Nat))
      (calls : List BuilderCall) (txids : List String),
      broadcastLoop txidOf gate payloads minc steps idx prev = (calls, .ok txids) →
      calls.length = steps.length ∧
      txids = (List.range' idx steps.length).map txidOf ∧
      (∀ k, k + 1 < steps.length → (steps.getD k default).change_output.isSome) ∧
      (∀ k, k < steps.length → ∃ rin,
        resolveChainedInputs (steps.getD k default).inputs
          (if k = 0 then prev
           else some (txidOf (idx + k - 1),
             (orderedOutputs (steps.getD (k - 1) default).outputs).length)) = .ok rin ∧
        calls.getD k default = .payment rin (builtOutputs (steps.getD k default))
          (steps.getD k default).fee (truthyStr (payloads (idx + k)))
          (steps.getD k default).script_plane)
  | [], idx, prev, calls, txids, h => by
    unfold broadcastLoop at h
    simp only [Prod.mk.injEq, Except.ok.injEq] at h
    obtain ⟨h1, h2⟩ := h
    subst h1
    subst h2
    exact ⟨rfl, by simp, by simp, by simp⟩
  | step :: rest, idx, prev, calls, txids, h => by
    unfold broadcastLoop at h
    cases hres : resolveChainedInputs step.inputs prev with
    | error e =>
      rw [hres] at h
      simp only [Prod.mk.injEq] at h
      exact absurd h.2 (by simp)
    | ok rin =>
      rw [hres] at h
      dsimp only at h
      cases hrest : rest with
      | nil =>
        rw [hrest] at h
        simp only [List.isEmpty_nil, if_true] at h
        simp only [Prod.mk.injEq, Except.ok.injEq] at h
        obtain ⟨h1, h2⟩ := h
        subst h1
        subst h2
        refine ⟨rfl, by simp, by simp, ?_⟩
        intro k hk
        have hk0 : k = 0 := by simpa using hk
        subst hk0
        exact ⟨rin, by simpa using hres, by simp⟩
      | cons r2 rs2 =>
        rw [hrest] at h
        simp only [List.isEmpty_cons, if_false, Bool.false_eq_true] at h
        cases hco : step.change_output with
        | none =>
          rw [hco] at h
          simp only [Prod.mk.injEq] at h
          exact absurd h.2 (by simp)
        | some co =>
          rw [hco] at h
          dsimp only at h
          split at h
          · simp only [Prod.mk.injEq] at h
            exact absurd h.2 (by simp)
          · cases hrec : broadcastLoop txidOf gate payloads minc (r2 :: rs2) (idx + 1)
                (some (txidOf idx, (orderedOutputs step.outputs).length)) with
            | mk calls2 res2 =>
              rw [hrec] at h
              dsimp only at h
              cases res2 with
              | error e =>
                simp only [Prod.mk.injEq] at h
                exact absurd h.2 (by simp [Except.map])
              | ok tl =>
                simp only [Prod.mk.injEq, Except.map, Except.ok.injEq] at h
                obtain ⟨h1, h2⟩ := h
                subst h1
                subst h2
                have ih := broadcastLoop_ok_spec txidOf gate payloads minc (r2 :: rs2)
                  (idx + 1) (some (txidOf idx, (orderedOutputs step.outputs).length))
                  calls2 tl hrec
                refine ⟨by simp [ih.1], ?_, ?_, ?_⟩
                · simp only [List.length_cons]
                  rw [List.range'_succ, List.map_cons, ih.2.1]
                  simp
                · intro k hk
                  cases k with
                  | zero => simp [hco]
                  | succ j =>
                    have := ih.2.2.1 j (by simpa using hk)
                    simpa using this
                · intro k hk
                  cases k with
                  | zero =>
                    refine ⟨rin, by simpa using hres, by simp⟩
                  | succ j =>
                    obtain ⟨rin2, hres2, hcall2⟩ := ih.2.2.2 j (by simpa using hk)
                    refine ⟨rin2, ?_, ?_⟩
                    · cases j with
                      | zero =>
                        simpa using hres2
                      | succ i =>
                        have harith : idx + 1 + (i + 1) - 1 = idx + (i + 1 + 1) - 1 := by omega
                        simp only [if_neg (by omega : ¬ i + 1 = 0)] at hres2
                        simp only [if_neg (by omega : ¬ i + 1 + 1 = 0)]
                        rw [harith] at hres2
                        simpa using hres2
                    · have harith2 : idx + 1 + j = idx + (j + 1) := by omega
                      rw [harith2] at hcall2
                      simpa using hcall2

theorem broadcastLoop_trace_guard (txidOf : Nat → String) (gate : Nat → String → Bool)
    (payloads : Nat → Option String) (minc : Nat) :
    ∀ (steps : List PatternPlan) (idx : Nat) (prev : Option (String × Nat))
      (calls : List BuilderCall) (res : Except String (List String)),
      broadcastLoop txidOf gate payloads minc steps idx prev = (calls, res) →
      ∀ k, k + 1 < calls.length → (steps.getD k default).change_output.isSome
  | [], idx, prev, calls, res, h => by
    unfold broadcastLoop at h
    simp only [Prod.mk.injEq] at h
    obtain ⟨h1, _⟩ := h
    subst h1
    simp
  | step :: rest, idx, prev, calls, res, h => by
    unfold broadcastLoop at h
    cases hres : resolveChainedInputs step.inputs prev with
    | error e =>
      rw [hres] at h
      simp only [Prod.mk.injEq] at h
      obtain ⟨h1, _⟩ := h
      subst h1
      simp
    | ok rin =>
      rw [hres] at h
      dsimp only at h
      cases hrest : rest with
      | nil =>
        rw [hrest] at h
        simp only [List.isEmpty_nil, if_true, Prod.mk.injEq] at h
        obtain ⟨h1, _⟩ := h
        subst h1
        intro k hk
        simp at hk
      | cons r2 rs2 =>
        rw [hrest] at h
        simp only [List.isEmpty_cons, if_false, Bool.false_eq_true] at h
        cases hco : step.change_output with
        | none =>
          rw [hco] at h
          simp only [Prod.mk.injEq] at h
          obtain ⟨h1, _⟩ := h
          subst h1
          intro k hk
          simp at hk
        | some co =>
          rw [hco] at h
          dsimp only at h
          split at h
          · simp only [Prod.mk.injEq] at h
            obtain ⟨h1, _⟩ := h
            subst h1
            intro k hk
            simp at hk
          · cases hrec : broadcastLoop txidOf gate payloads minc (r2 :: rs2) (idx + 1)
                (some (txidOf idx, (orderedOutputs step.outputs).length)) with
            | mk calls2 res2 =>
              rw [hrec] at h
              dsimp only at h
              simp only [Prod.mk.injEq] at h
              obtain ⟨h1, _⟩ := h
              subst h1
              intro k hk
              cases k with
              | zero => simp [hco]
              | succ j =>
                have ih := broadcastLoop_trace_guard txidOf gate payloads minc (r2 :: rs2)
                  (idx + 1) (some (txidOf idx, (orderedOutputs step.outputs).length))
                  calls2 res2 hrec
                have := ih j (by simpa using hk)
                simpa using this

/-- C4: broadcasting an N-step plan in chained (non-single-tx) mode: a
successful run invokes the build-and-broadcast collaborator exactly once
per step, in order, returning the oracle txids in order; every non-final
step of a successfully broadcast plan produced a change output; each step's
inputs are resolved against the previous step's returned txid and its
change-output index (the sentinel of step `k > 0` resolves to
`(txid of step k-1, change index of step k-1)`); and — in any run — a step
is never handed to the collaborator after a predecessor that produced no
change output: the run raises a `PlanningError` first, so such a plan never
broadcasts the dependent step and never succeeds. -/
theorem broadcast_pattern_plan_chained
    (txidOf : Nat → String) (gate : Nat → String → Bool) (walletUtxos : List Utxo)
    (newAddr : String) (plan : PatternPlanSequence)
    (op_returns : Option (List (Option String))) (minc : Nat)
    (calls : List BuilderCall) (txids : List String)
    (h : broadcast_pattern_plan txidOf gate walletUtxos newAddr plan op_returns minc false
      = (calls, .ok txids)) :
    calls.length = plan.steps.length ∧
    txids = (List.range' 0 plan.steps.length).map txidOf ∧
    (∀ k, k + 1 < plan.steps.length → (plan.steps.getD k default).change_output.isSome) ∧
    (∀ k, k < plan.steps.length → ∃ rin,
      resolveChainedInputs (plan.steps.getD k default).inputs
        (if k = 0 then none
         else some (txidOf (k - 1),
           (orderedOutputs (plan.steps.getD (k - 1) default).outputs).length)) = .ok rin ∧
      calls.getD k default = .payment rin (builtOutputs (plan.steps.getD k default))
        (plan.steps.getD k default).fee (truthyStr (payloadAt op_returns k))
        (plan.steps.getD k default).script_plane) ∧
    (∀ (plan2 : PatternPlanSequence) (calls2 : List BuilderCall)
        (res2 : Except String (List String)),
      broadcast_pattern_plan txidOf gate walletUtxos newAddr plan2 op_returns minc false
        = (calls2, res2) →
      (∀ k, k + 1 < calls2.length → (plan2.steps.getD k default).change_output.isSome) ∧
      (∀ k, k + 1 < plan2.steps.length → (plan2.steps.getD k default).change_output = none →
        res2.isOk = false)) := by
  unfold broadcast_pattern_plan at h
  split at h
  · simp only [Prod.mk.injEq] at h
    exact absurd h.2 (by simp)
  · simp only [if_neg (by simp : ¬ false = true)] at h
    have hspec := broadcastLoop_ok_spec txidOf gate (payloadAt op_returns) minc
      plan.steps 0 none calls txids h
    refine ⟨hspec.1, hspec.2.1, hspec.2.2.1, ?_, ?_⟩
    · intro k hk
      obtain ⟨rin, hres, hcall⟩ := hspec.2.2.2 k hk
      refine ⟨rin, ?_, by simpa using hcall⟩
      cases k with
      | zero => simpa using hres
      | succ j => simpa using hres
    · intro plan2 calls2 res2 h2
      unfold broadcast_pattern_plan at h2
      split at h2
      · simp only [Prod.mk.injEq] at h2
        obtain ⟨h21, h22⟩ := h2
        subst h21
        subst h22
        exact ⟨by simp, by simp [Except.isOk, Except.toBool]⟩
      · simp only [if_neg (by simp : ¬ false = true)] at h2
        constructor
        · exact broadcastLoop_trace_guard txidOf gate (payloadAt op_returns) minc
            plan2.steps 0 none calls2 res2 h2
        · intro k hk hnone
          cases res2 with
          | error e => simp [Except.isOk, Except.toBool]
          | ok tl =>
            exfalso
            have hspec2 := broadcastLoop_ok_spec txidOf gate (payloadAt op_returns) minc
              plan2.steps 0 none calls2 tl h2
            have := hspec2.2.2.1 k hk
            rw [hnone] at this
            simp at this

/-- A concrete txid oracle for the broadcast collaborator. -/
def txidOfW : Nat → String := fun k => "tx" ++ toString k

/-- A concrete confirmation gate that always reaches the required depth. -/
def gateW : Nat → String → Bool := fun _ _ => true

/-- Witness for the chained-broadcast theorem on the concrete three-step
plan: the collaborator is invoked exactly three times and the returned
txids are the oracle's, in order. -/
theorem broadcast_pattern_plan_chained_witness :
    ["tx0", "tx1", "tx2"] = (List.range' 0 seqW.steps.length).map txidOfW := by
  have happ := broadcast_pattern_plan_chained txidOfW gateW [] "" seqW none 0
    [.payment [("a", 0), ("b", 1)] [("dst", 1), ("chg0", 59/10)] (1/10) none none,
     .payment [("tx0", 1)] [("dst", 2), ("chg1", 19/5)] (1/10) none none,
     .payment [("tx1", 1)] [("dst", 3), ("chg2", 7/10)] (1/10) none none]
    ["tx0", "tx1", "tx2"] (by decide)
  exact happ.2.1

/-- C10: broadcasting an empty-step plan in single-transaction mode (with a
matching or absent payload list) returns an empty txid list and makes no
collaborator call at all (the trace is empty). -/
theorem broadcast_pattern_plan_single_tx_empty
    (txidOf : Nat → String) (gate : Nat → String → Bool) (walletUtxos : List Utxo)
    (newAddr : String) (op_returns : Option (List (Option String))) (minc : Nat)
    (hop : op_returns = none ∨ op_returns = some []) :
    broadcast_pattern_plan txidOf gate walletUtxos newAddr ⟨[]⟩ op_returns minc true
      = ([], .ok []) := by
  rcases hop with rfl | rfl <;> rfl

/-- Witness for the empty single-transaction broadcast at concrete
collaborators. -/
theorem broadcast_pattern_plan_single_tx_empty_witness :
    broadcast_pattern_plan txidOfW gateW [] "" ⟨[]⟩ none 0 true = ([], .ok []) :=
  broadcast_pattern_plan_single_tx_empty txidOfW gateW [] "" none 0 (Or.inl rfl)

theorem roundHalfEven8_of_quant8 {q : ℚ} (h : Quant8 q) : roundHalfEven8 q = q := by
  obtain ⟨n, rfl⟩ := h
  unfold roundHalfEven8
  dsimp only
  have hs : (n : ℚ) / 100000000 * 100000000 = (n : ℚ) := by field_simp
  rw [hs, Int.floor_intCast]
  rw [if_pos (by simp : ((n : ℚ) - ((n : ℤ) : ℚ)) < 1/2)]

theorem aggFold_from_single (to_address : String) :
    ∀ (amounts : List ℚ) (acc : ℚ), (∀ a ∈ amounts, Quant8 a) → Quant8 acc →
    amounts.foldl (fun d a => dictSet d to_address
        (roundHalfEven8 ((dictGet d to_address).getD 0 + a))) [(to_address, acc)]
      = [(to_address, acc + amounts.sum)]
  | [], acc, _, _ => by simp
  | a :: rest, acc, hq, hacc => by
    simp only [List.foldl_cons]
    have h1 : dictGet [(to_address, acc)] to_address = some acc := by
      simp [dictGet, List.find?]
    rw [h1]
    simp only [Option.getD_some]
    have h2 : dictSet [(to_address, acc)] to_address (roundHalfEven8 (acc + a))
        = [(to_address, roundHalfEven8 (acc + a))] := by
      simp [dictSet]
    rw [h2, roundHalfEven8_of_quant8 (hacc.add (hq a (by simp)))]
    rw [aggFold_from_single to_address rest (acc + a) (fun b hb => hq b (by simp [hb]))
      (hacc.add (hq a (by simp)))]
    have hsum : acc + a + rest.sum = acc + (a :: rest).sum := by
      rw [List.sum_cons]; ring
    rw [hsum]

theorem aggFold_total (to_address : String) :
    ∀ (amounts : List ℚ), amounts ≠ [] → (∀ a ∈ amounts, Quant8 a) →
    amounts.foldl (fun d a => dictSet d to_address
        (roundHalfEven8 ((dictGet d to_address).getD 0 + a))) []
      = [(to_address, amounts.sum)]
  | [], h, _ => absurd rfl h
  | a :: rest, _, hq => by
    simp only [List.foldl_cons]
    have h1 : dictGet [] to_address = none := by simp [dictGet]
    rw [h1]
    simp only [Option.getD_none, zero_add]
    have h2 : dictSet [] to_address (roundHalfEven8 a) = [(to_address, roundHalfEven8 a)] := by
      simp [dictSet]
    rw [h2, roundHalfEven8_of_quant8 (hq a (by simp))]
    rw [aggFold_from_single to_address rest a (fun b hb => hq b (by simp [hb])) (hq a (by simp))]
    simp

/-- The two-step uniform-destination plan used to probe single fan-out
mode (both steps pay `dst`, fee 0.1 each). -/
def planC8 : PatternPlanSequence :=
  ⟨[⟨[⟨"u", 0, 10⟩], [⟨"dst", 1⟩], some ⟨"c1", 89/10⟩, 1/10, none⟩,
    ⟨[⟨PREVIOUS_CHANGE_SENTINEL, 0, 89/10⟩], [⟨"dst", 2⟩], some ⟨"c2", 68/10⟩, 1/10, none⟩]⟩

/-- The wallet funding the fan-out builder's own selection. -/
def walletC8 : List Utxo := [⟨"w", 0, 10, true⟩]

/-- C8 counterexample: broadcasting the two-step plan in single-transaction
mode makes exactly one collaborator call, but the built transaction has ONE
aggregated value output `("dst", 3.0)` — not one output per original step —
because the builder aggregates amounts into a dictionary keyed by address;
and two steps carrying the SAME payload (one distinct payload) are rejected,
because the code counts non-null payloads, not distinct ones. -/
theorem broadcast_single_tx_counterexample :
    broadcast_pattern_plan txidOfW gateW walletC8 "chgX" planC8 none 0 true
      = ([.fanout "dst" [1, 2] (1/10) none none], .ok ["tx0"]) ∧
    send_multi_output_tx walletC8 "chgX" "dst" [1, 2] (1/10)
      = .ok [("dst", 3), ("chgX", 69/10)] ∧
    (([("dst", (3:ℚ)), ("chgX", 69/10)].filter (fun p => p.1 == "dst")).length = 1 ∧
      planC8.steps.length = 2 ∧ (1 : Nat) ≠ 2) ∧
    broadcast_pattern_plan txidOfW gateW walletC8 "chgX" planC8
      (some [some "aa", some "aa"]) 0 true
      = ([], .error "Single fan-out mode supports at most one OP_RETURN payload across frames") := by
  refine ⟨by decide, by decide, by decide, by decide⟩

/-- C8 amended: broadcasting a uniform-address, uniform-fee sequence in
single-transaction fan-out mode invokes the build-and-broadcast collaborator
exactly once; the built transaction carries ONE aggregated value output for
the shared destination whose amount is the (8-decimal, half-even rounded)
sum of the original steps' primary amounts — the chained mode's total —
plus one change output at a fresh wallet address when the change exceeds
`1e-8`; the run rejects with a `PlanningError` when the steps' destination
addresses or fees are not uniform, or when more than one step carries a
non-empty auxiliary (OP_RETURN) payload, even if the payloads are
identical. -/
theorem broadcast_single_tx_fanout
    (txidOf : Nat → String) (gate : Nat → String → Bool) (walletUtxos : List Utxo)
    (newAddr : String) (plan : PatternPlanSequence)
    (op_returns : Option (List (Option String))) (minc : Nat)
    (hop : op_returns.any (fun l => decide (l.length ≠ plan.steps.length)) = false)
    (hne : plan.steps ≠ []) :
    ((((plan.steps.map (fun s => s.outputs.headI)).map PatternOutput.address).dedup.length ≠ 1 →
      broadcast_pattern_plan txidOf gate walletUtxos newAddr plan op_returns minc true
        = ([], .error "Single fan-out mode requires a consistent destination address"))) ∧
    ((((plan.steps.map (fun s => s.outputs.headI)).map PatternOutput.address).dedup.length = 1 →
      plan.steps.any (fun s => decide (s.fee ≠ (plan.steps.headI).fee)) = true →
      broadcast_pattern_plan txidOf gate walletUtxos newAddr plan op_returns minc true
        = ([], .error "Single fan-out mode requires a uniform fee across frames"))) ∧
    ((((plan.steps.map (fun s => s.outputs.headI)).map PatternOutput.address).dedup.length = 1 →
      plan.steps.any (fun s => decide (s.fee ≠ (plan.steps.headI).fee)) = false →
      ¬ (plan.steps.map PatternPlan.script_plane).dedup.length > 1 →
      (match op_returns with
        | some l => l.filterMap truthyStr
        | none => ([] : List String)).length > 1 →
      broadcast_pattern_plan txidOf gate walletUtxos newAddr plan op_returns minc true
        = ([], .error
            "Single fan-out mode supports at most one OP_RETURN payload across frames"))) ∧
    (∀ (calls : List BuilderCall) (txids : List String),
      broadcast_pattern_plan txidOf gate walletUtxos newAddr plan op_returns minc true
        = (calls, .ok txids) →
      calls = [BuilderCall.fanout
          (((plan.steps.map (fun s => s.outputs.headI)).map PatternOutput.address).dedup.headI)
          ((plan.steps.map (fun s => s.outputs.headI)).map PatternOutput.amount)
          (plan.steps.headI).fee
          ((match op_returns with
            | some l => l.filterMap truthyStr
            | none => ([] : List String)).head?)
          (if (plan.steps.map PatternPlan.script_plane).dedup.length = 1 then
            (plan.steps.map PatternPlan.script_plane).dedup.headI else none)] ∧
      txids = [txidOf 0]) ∧
    (∀ (to_address : String) (amounts : List ℚ) (fee : ℚ) (outs : List (String × ℚ)),
      amounts ≠ [] → (∀ a ∈ amounts, Quant8 a) → newAddr ≠ to_address →
      send_multi_output_tx walletUtxos newAddr to_address amounts fee = .ok outs →
      outs.headI = (to_address, amounts.sum) ∧
      (outs.map Prod.fst).count to_address = 1 ∧ outs.length ≤ 2) := by
  have hee : plan.steps.isEmpty = false := by
    simpa using hne
  refine ⟨?_, ?_, ?_, ?_, ?_⟩
  · intro haddr
    unfold broadcast_pattern_plan
    rw [hop]
    simp only [Bool.false_eq_true, if_false, if_true, hee]
    rw [if_pos haddr]
  · intro haddr hfee
    unfold broadcast_pattern_plan
    rw [hop]
    simp only [Bool.false_eq_true, if_false, if_true, hee]
    rw [if_neg (by simpa using haddr), if_pos hfee]
  · intro haddr hfee hpl hpay
    unfold broadcast_pattern_plan
    rw [hop]
    simp only [Bool.false_eq_true, if_false, if_true, hee]
    rw [if_neg (by simpa using haddr), if_neg (by simpa using hfee), if_neg hpl, if_pos hpay]
  · intro calls txids hsucc
    unfold broadcast_pattern_plan at hsucc
    rw [hop] at hsucc
    simp only [Bool.false_eq_true, if_false, if_true, hee] at hsucc
    split at hsucc
    · simp only [Prod.mk.injEq] at hsucc
      exact absurd hsucc.2 (by simp)
    · split at hsucc
      · simp only [Prod.mk.injEq] at hsucc
        exact absurd hsucc.2 (by simp)
      · split at hsucc
        · simp only [Prod.mk.injEq] at hsucc
          exact absurd hsucc.2 (by simp)
        · split at hsucc
          · simp only [Prod.mk.injEq] at hsucc
            exact absurd hsucc.2 (by simp)
          · split at hsucc
            · simp only [Prod.mk.injEq] at hsucc
              exact absurd hsucc.2 (by simp)
            · simp only [Prod.mk.injEq, Except.ok.injEq] at hsucc
              exact ⟨hsucc.1.symm, hsucc.2.symm⟩
  · intro to_address amounts fee outs hamne hq hnewaddr hsend
    unfold send_multi_output_tx at hsend
    rw [if_neg (by simpa using hamne)] at hsend
    dsimp only at hsend
    cases hselb : builder_select_utxos walletUtxos amounts.sum fee with
    | error e =>
      rw [hselb] at hsend
      exact absurd hsend (by simp)
    | ok sc =>
      rw [hselb] at hsend
      dsimp only at hsend
      rw [aggFold_total to_address amounts hamne hq] at hsend
      split at hsend
      · simp only [Except.ok.injEq] at hsend
        have houts : outs = dictSet [(to_address, amounts.sum)] newAddr
            (roundHalfEven8 sc.2) := hsend.symm
        subst houts
        have hset : dictSet [(to_address, amounts.sum)] newAddr (roundHalfEven8 sc.2)
            = [(to_address, amounts.sum), (newAddr, roundHalfEven8 sc.2)] := by
          simp [dictSet, hnewaddr, Ne.symm hnewaddr]
        rw [hset]
        refine ⟨rfl, ?_, by simp⟩
        simp [List.count_cons, hnewaddr, Ne.symm hnewaddr]
      · simp only [Except.ok.injEq] at hsend
        have houts : outs = [(to_address, amounts.sum)] := hsend.symm
        subst houts
        exact ⟨rfl, by simp, by simp⟩

/-- Witness for the fan-out theorem: on the concrete two-step plan the
built transaction's first output is the aggregated `("dst", 1 + 2)` entry,
`dst` appears exactly once, and there are at most two outputs. -/
theorem broadcast_single_tx_fanout_witness :
    ([("dst", (3:ℚ)), ("chgX", 69/10)] : List (String × ℚ)).headI
        = ("dst", ([(1:ℚ), 2]).sum) ∧
      (([("dst", (3:ℚ)), ("chgX", 69/10)].map Prod.fst).count "dst" = 1) ∧
      ([("dst", (3:ℚ)), ("chgX", 69/10)] : List (String × ℚ)).length ≤ 2 :=
  (broadcast_single_tx_fanout txidOfW gateW walletC8 "chgX" planC8 none 0
    (by decide) (by decide)).2.2.2.2 "dst" [1, 2] (1/10) [("dst", 3), ("chgX", 69/10)]
    (by decide)
    (fun a ha => by
      rcases List.mem_cons.mp ha with rfl | h2
      · exact ⟨100000000, by norm_num⟩
      · rcases List.mem_cons.mp h2 with rfl | h3
        · exact ⟨200000000, by norm_num⟩
        · exact absurd h3 (by simp))
    (by decide) (by decide)

/-- `DEFAULT_FALLBACK_FEE_RATE_SATVB` from `fees.py`. -/
def DEFAULT_FALLBACK_FEE_RATE_SATVB : ℚ := 10000

/-- `dgb_per_kvb_to_sat_vb` from `fees.py`: `rate * 1e8 / 1000`. -/
def dgb_per_kvb_to_sat_vb (rate : ℚ) : ℚ := rate * 100000000 / 1000

/-- The wallet node's fee-related surface as `select_fee_rate` observes it:
each field is `none` when the RPC call failed, the key was missing or the
value was unparseable. -/
structure FeeNodeState where
  mempoolminfee : Option ℚ
  incrementalfee : Option ℚ
  relayfee : Option ℚ
  minrelaytxfee : Option ℚ
  estimate_feerate : Option ℚ
  estimate_feeRate : Option ℚ
  estimate_ok : Bool
  deriving DecidableEq

/-- `FeeSelectionResult` dataclass from `fees.py`. -/
structure FeeSelectionResult where
  fee_rate_sat_vb : ℚ
  source : String
  floors_applied : List (String × ℚ)
  fee_sats : Option Int
  vsize : Option Nat
  deriving DecidableEq

/-- Python `a or b` over optional numbers: a present zero counts as absent. -/
def orTruthyQ (a b : Option ℚ) : Option ℚ :=
  match a with
  | some x => if x = 0 then b else some x
  | none => b

/-- `_extract_estimate_rate` from `fees.py`: read `feerate` (falling back to
`feeRate` under Python `or` truthiness); a value below 1.0 is reinterpreted
as DGB/kvB and converted to sat/vB, otherwise it is used as-is.  Returns
the rate and the unit tag. -/
def extract_estimate_rate (node : FeeNodeState) : Option (ℚ × String) :=
  if node.estimate_ok = false then none
  else
    match orTruthyQ node.estimate_feerate node.estimate_feeRate with
    | none => none
    | some parsed =>
      if parsed < 1 then some (dgb_per_kvb_to_sat_vb parsed, "dgb/kvb")
      else some (parsed, "sat/vb")

/-- `_policy_floor_from_rpc` from `fees.py`: the labelled policy floors, in
source order, each converted from DGB/kvB to sat/vB. -/
def policy_components (node : FeeNodeState) : List (String × ℚ) :=
  (match node.mempoolminfee with
    | some v => [("mempoolminfee", dgb_per_kvb_to_sat_vb v)]
    | none => []) ++
  (match node.incrementalfee with
    | some v => [("incrementalfee", dgb_per_kvb_to_sat_vb v)]
    | none => []) ++
  (match node.relayfee with
    | some v => [("relayfee", dgb_per_kvb_to_sat_vb v)]
    | none => []) ++
  (match node.minrelaytxfee with
    | some v => [("minrelaytxfee", dgb_per_kvb_to_sat_vb v)]
    | none => [])

/-- `max` of a list of rates (`none` when empty), as Python `max(...)` over
the floor candidates. -/
def listMaxQ : List ℚ → Option ℚ
  | [] => none
  | x :: xs => some (xs.foldl max x)

/-- The floor-candidate list of `select_fee_rate`: environment override,
caller floor, the node policy components, then the policy maximum under the
label `policy_floor`. -/
def floorCandidates (envMinFloor : Option ℚ) (min_fee_rate_satvb_floor : Option ℚ)
    (node : FeeNodeState) : List (String × ℚ) :=
  (match envMinFloor with | some v => [("env", v)] | none => []) ++
  (match min_fee_rate_satvb_floor with | some v => [("cli_floor", v)] | none => []) ++
  policy_components node ++
  (match listMaxQ ((policy_components node).map Prod.snd) with
    | some pf => [("policy_floor", pf)]
    | none => [])

/-- The fallback chain of `select_fee_rate` (Python `or` over
`user or min_floor or env_fallback or fallback_param or DEFAULT`). -/
def fallbackChain (user_fee_rate_satvb min_fee_rate_satvb_floor envFallback
    fallback_fee_rate_satvb : Option ℚ) : ℚ :=
  (orTruthyQ user_fee_rate_satvb
    (orTruthyQ min_fee_rate_satvb_floor
      (orTruthyQ envFallback
        (orTruthyQ fallback_fee_rate_satvb
          (some DEFAULT_FALLBACK_FEE_RATE_SATVB))))).getD DEFAULT_FALLBACK_FEE_RATE_SATVB

/-- The rate/source choice of `select_fee_rate` before the floor clamp:
the explicit user rate, else the node estimate, else the fallback chain. -/
def rateSourceOf (node : FeeNodeState) (envFallback : Option ℚ)
    (user_fee_rate_satvb : Option ℚ) (min_fee_rate_satvb_floor : Option ℚ)
    (fallback_fee_rate_satvb : Option ℚ) : ℚ × String :=
  match user_fee_rate_satvb with
  | some u => (u, "user")
  | none =>
    match extract_estimate_rate node with
    | some (est, unit) => (est, "estimatesmartfee[" ++ unit ++ "]")
    | none =>
      (fallbackChain user_fee_rate_satvb min_fee_rate_satvb_floor envFallback
        fallback_fee_rate_satvb, "fallback")

/-- The final floor clamp of `select_fee_rate`: raise the rate to the
maximum floor candidate when it sits below it. -/
def clampToFloor (cands : List (String × ℚ)) (rate : ℚ) : ℚ :=
  match listMaxQ (cands.map Prod.snd) with
  | some fv => if rate < fv then fv else rate
  | none => rate

/-- `select_fee_rate` from `fees.py`.  `envMinFloor` and `envFallback` embed
the two parsed environment variables; the node RPC surface is `node`. -/
def select_fee_rate (node : FeeNodeState) (envMinFloor envFallback : Option ℚ)
    (user_fee_rate_satvb : Option ℚ) (min_fee_rate_satvb_floor : Option ℚ)
    (max_fee_sats : Option Int) (tx_vsize_estimate : Option Nat)
    (fallback_fee_rate_satvb : Option ℚ) : Except String FeeSelectionResult :=
  let floor_candidates := floorCandidates envMinFloor min_fee_rate_satvb_floor node
  let floor_value := listMaxQ (floor_candidates.map Prod.snd)
  let floors_applied := match floor_value with
    | some fv => floor_candidates.filter (fun p => p.2 == fv)
    | none => []
  let rate_source : ℚ × String :=
    rateSourceOf node envFallback user_fee_rate_satvb min_fee_rate_satvb_floor
      fallback_fee_rate_satvb
  let fee_rate := clampToFloor floor_candidates rate_source.1
  let selection : FeeSelectionResult :=
    match tx_vsize_estimate with
    | some v =>
      if v ≠ 0 then
        ⟨fee_rate, rate_source.2, floors_applied, some ⌈fee_rate * (v : ℚ)⌉, some v⟩
      else ⟨fee_rate, rate_source.2, floors_applied, none, none⟩
    | none => ⟨fee_rate, rate_source.2, floors_applied, none, none⟩
  match max_fee_sats, selection.fee_sats with
  | some mx, some fs =>
    if fs > mx then .error "Computed fee exceeds max-fee-sats" else .ok selection
  | _, _ => .ok selection

theorem le_foldl_max : ∀ (xs : List ℚ) (a : ℚ), a ≤ xs.foldl max a
  | [], a => le_refl a
  | x :: xs, a => le_trans (le_max_left a x) (le_foldl_max xs (max a x))

theorem mem_le_foldl_max : ∀ (xs : List ℚ) (a x : ℚ), x ∈ xs → x ≤ xs.foldl max a
  | [], _, _, h => absurd h (by simp)
  | y :: ys, a, x, h => by
    rcases List.mem_cons.mp h with rfl | h2
    · exact le_trans (le_max_right a x) (le_foldl_max ys (max a x))
    · exact mem_le_foldl_max ys (max a y) x h2

theorem listMaxQ_is_ub {l : List ℚ} {x : ℚ} (hx : x ∈ l) :
    ∃ m, listMaxQ l = some m ∧ x ≤ m := by
  cases l with
  | nil => exact absurd hx (by simp)
  | cons y ys =>
    refine ⟨ys.foldl max y, rfl, ?_⟩
    rcases List.mem_cons.mp hx with rfl | h2
    · exact le_foldl_max ys x
    · exact mem_le_foldl_max ys y x h2

theorem select_fee_rate_ok_fields
    {node : FeeNodeState} {envMinFloor envFallback user cli fallback : Option ℚ}
    {maxs : Option Int} {vsize : Option Nat} {r : FeeSelectionResult}
    (h : select_fee_rate node envMinFloor envFallback user cli maxs vsize fallback = .ok r) :
    r.fee_rate_sat_vb = clampToFloor (floorCandidates envMinFloor cli node)
      (rateSourceOf node envFallback user cli fallback).1 ∧
    r.source = (rateSourceOf node envFallback user cli fallback).2 := by
  unfold select_fee_rate at h
  dsimp only at h
  split at h
  · split at h
    · exact absurd h (by simp)
    · simp only [Except.ok.injEq] at h
      subst h
      constructor <;>
      · split
        · split
          · rfl
          · rfl
        · rfl
  · simp only [Except.ok.injEq] at h
    subst h
    constructor <;>
    · split
      · split
        · rfl
        · rfl
      · rfl

/-- C6: for every combination of present/absent fee sources, a successful
`select_fee_rate` run never returns a rate strictly below any floor
candidate (environment floor, caller floor, node policy components, or
their maximum). -/
theorem select_fee_rate_respects_floors
    (node : FeeNodeState) (envMinFloor envFallback user cli : Option ℚ)
    (maxs : Option Int) (vsize : Option Nat) (fallback : Option ℚ)
    (r : FeeSelectionResult)
    (h : select_fee_rate node envMinFloor envFallback user cli maxs vsize fallback
      = .ok r) :
    ∀ c ∈ floorCandidates envMinFloor cli node, c.2 ≤ r.fee_rate_sat_vb := by
  intro c hc
  have hr := (select_fee_rate_ok_fields h).1
  obtain ⟨fv, hfv, hle⟩ := listMaxQ_is_ub (List.mem_map_of_mem Prod.snd hc)
  rw [hr]
  unfold clampToFloor
  rw [hfv]
  dsimp only
  split
  · exact hle
  · next hnl => exact le_trans hle (not_lt.mp hnl)

/-- A node reporting only a mempool minimum fee of 0.001 DGB/kvB. -/
def nodeMempoolOnly : FeeNodeState := ⟨some (1/1000), none, none, none, none, none, false⟩

/-- Witness for the fee-floor theorem: a user rate of 5 sat/vB is clamped
up to the 100 sat/vB mempool policy floor. -/
theorem select_fee_rate_respects_floors_witness :
    (("mempoolminfee", (100:ℚ)) : String × ℚ).2 ≤
      (FeeSelectionResult.mk 100 "user"
        [("mempoolminfee", 100), ("policy_floor", 100)] none none).fee_rate_sat_vb :=
  select_fee_rate_respects_floors nodeMempoolOnly none none (some 5) none none none none
    ⟨100, "user", [("mempoolminfee", 100), ("policy_floor", 100)], none, none⟩
    (by decide) ("mempoolminfee", 100) (by decide)

/-- A node with no usable fee estimate and no policy floors. -/
def nodeNoEst : FeeNodeState := ⟨none, none, none, none, none, none, false⟩

/-- C7 counterexample: with no user rate, no node estimate, no floors, an
environment fallback of 100 and an explicit fallback parameter of 20, the
code returns 100 — the environment fallback takes priority over the
explicit fallback parameter, contradicting the claimed order. -/
theorem select_fee_rate_fallback_counterexample :
    select_fee_rate nodeNoEst none (some 100) none none none none (some 20)
      = .ok ⟨100, "fallback", [], none, none⟩ ∧ (100 : ℚ) ≠ 20 :=
  ⟨by decide, by decide⟩

/-- C7 amended: when no user rate is given and the node estimate is
unavailable, the chosen rate (before the floor clamp) comes from the
fallback chain in this priority order: the caller floor parameter first,
then the environment fallback variable, then the explicit fallback
parameter, then the hardcoded default (each skipped when absent or zero,
per Python `or`); and when the node estimate is available, a returned
numeric value below 1.0 is reinterpreted as amount-per-kilo-virtual-byte
and converted via `× 1e8 / 1000`, while a value of at least 1.0 is used
as-is. -/
theorem select_fee_rate_priority
    (node : FeeNodeState) (envMinFloor envFallback cli fallback : Option ℚ)
    (maxs : Option Int) (vsize : Option Nat) (r : FeeSelectionResult) :
    (extract_estimate_rate node = none →
      select_fee_rate node envMinFloor envFallback none cli maxs vsize fallback = .ok r →
      r.source = "fallback" ∧
      r.fee_rate_sat_vb = clampToFloor (floorCandidates envMinFloor cli node)
        (fallbackChain none cli envFallback fallback) ∧
      fallbackChain none cli envFallback fallback
        = (orTruthyQ cli (orTruthyQ envFallback (orTruthyQ fallback
            (some DEFAULT_FALLBACK_FEE_RATE_SATVB)))).getD DEFAULT_FALLBACK_FEE_RATE_SATVB) ∧
    (∀ est unit, extract_estimate_rate node = some (est, unit) →
      select_fee_rate node envMinFloor envFallback none cli maxs vsize fallback = .ok r →
      r.source = "estimatesmartfee[" ++ unit ++ "]" ∧
      r.fee_rate_sat_vb = clampToFloor (floorCandidates envMinFloor cli node) est) ∧
    (∀ parsed, node.estimate_ok = true →
      orTruthyQ node.estimate_feerate node.estimate_feeRate = some parsed →
      extract_estimate_rate node
        = some (if parsed < 1 then (parsed * 100000000 / 1000, "dgb/kvb")
                else (parsed, "sat/vb"))) := by
  refine ⟨?_, ?_, ?_⟩
  · intro hext h
    have hf := select_fee_rate_ok_fields h
    have hrs : rateSourceOf node envFallback none cli fallback
        = (fallbackChain none cli envFallback fallback, "fallback") := by
      unfold rateSourceOf
      rw [hext]
    rw [hrs] at hf
    exact ⟨hf.2, hf.1, rfl⟩
  · intro est unit hext h
    have hf := select_fee_rate_ok_fields h
    have hrs : rateSourceOf node envFallback none cli fallback
        = (est, "estimatesmartfee[" ++ unit ++ "]") := by
      unfold rateSourceOf
      rw [hext]
    rw [hrs] at hf
    exact ⟨hf.2, hf.1⟩
  · intro parsed hok htr
    unfold extract_estimate_rate
    rw [hok, htr]
    by_cases hp : parsed < 1
    · simp [hp, dgb_per_kvb_to_sat_vb]
    · simp [hp]

/-- Witness for the fallback-priority theorem: environment fallback 100
beats the explicit fallback parameter 20; no floors apply. -/
theorem select_fee_rate_priority_witness :
    (FeeSelectionResult.mk 100 "fallback" [] none none).source = "fallback" ∧
      (FeeSelectionResult.mk 100 "fallback" [] none none).fee_rate_sat_vb
        = clampToFloor (floorCandidates none none nodeNoEst)
            (fallbackChain none none (some 100) (some 20)) ∧
      fallbackChain none none (some 100) (some 20)
        = (orTruthyQ none (orTruthyQ (some 100) (orTruthyQ (some 20)
            (some DEFAULT_FALLBACK_FEE_RATE_SATVB)))).getD DEFAULT_FALLBACK_FEE_RATE_SATVB :=
  (select_fee_rate_priority nodeNoEst none (some 100) none (some 20) none none
    ⟨100, "fallback", [], none, none⟩).1 (by decide) (by decide)

/-- A nonnegative finite Python `Decimal`: coefficient and exponent
(`value = coeff * 10^exp`).  All amounts the planner serializes are
nonnegative. -/
structure PyDecimal where
  coeff : Nat
  exp : Int
  deriving DecidableEq

/-- Base-10 digits of `n`, least significant first, with explicit fuel so
the kernel can evaluate it. -/
def natDigitsGo : Nat → Nat → List Nat
  | 0, _ => []
  | _ + 1, 0 => []
  | fuel + 1, n + 1 => (n + 1) % 10 :: natDigitsGo fuel ((n + 1) / 10)

/-- The decimal digit string of a coefficient, most significant first
(`"0"` for zero), as Python renders `Decimal._int`. -/
def natDigitsM (c : Nat) : List Nat :=
  if c = 0 then [0] else (natDigitsGo c c).reverse

theorem natDigitsGo_eq : ∀ (fuel n : Nat), n ≤ fuel → natDigitsGo fuel n = Nat.digits 10 n
  | 0, 0, _ => by simp [natDigitsGo]
  | 0, n + 1, h => absurd h (by omega)
  | fuel + 1, 0, _ => by simp [natDigitsGo]
  | fuel + 1, n + 1, h => by
    unfold natDigitsGo
    have hlt : (n + 1) / 10 ≤ fuel := by
      have := Nat.div_le_self (n + 1) 10
      have h2 : (n + 1) / 10 < n + 1 := Nat.div_lt_self (by omega) (by omega)
      omega
    rw [natDigitsGo_eq fuel ((n + 1) / 10) hlt]
    rw [Nat.digits_def' (by norm_num : 1 < 10) (by omega : 0 < n + 1)]

theorem natDigitsM_eq (c : Nat) (hc : c ≠ 0) : natDigitsM c = (Nat.digits 10 c).reverse := by
  unfold natDigitsM
  rw [if_neg hc, natDigitsGo_eq c c le_rfl]

theorem natDigitsM_lt_base (c : Nat) : ∀ d ∈ natDigitsM c, d < 10 := by
  intro d hd
  by_cases hc : c = 0
  · subst hc
    simp [natDigitsM] at hd
    omega
  · rw [natDigitsM_eq c hc] at hd
    exact Nat.digits_lt_base (by norm_num) (List.mem_reverse.mp hd)

theorem natDigitsM_ne_nil (c : Nat) : natDigitsM c ≠ [] := by
  by_cases hc : c = 0
  · subst hc
    simp [natDigitsM]
  · rw [natDigitsM_eq c hc]
    simp [hc, Nat.digits_ne_nil_iff_ne_zero]

/-- Parse a big-endian digit list back to a number. -/
def digitsToNat (ds : List Nat) : Nat := ds.foldl (fun a d => 10 * a + d) 0

theorem foldl_digits_acc : ∀ (ds : List Nat) (acc : Nat),
    ds.foldl (fun a d => 10 * a + d) acc = acc * 10 ^ ds.length + digitsToNat ds
  | [], acc => by simp [digitsToNat]
  | d :: rest, acc => by
    unfold digitsToNat
    simp only [List.foldl_cons]
    rw [foldl_digits_acc rest (10 * acc + d), foldl_digits_acc rest (10 * 0 + d)]
    simp only [List.length_cons]
    ring

theorem digitsToNat_append (a b : List Nat) :
    digitsToNat (a ++ b) = digitsToNat a * 10 ^ b.length + digitsToNat b := by
  unfold digitsToNat
  rw [List.foldl_append]
  rw [foldl_digits_acc b (List.foldl (fun a d => 10 * a + d) 0 a)]
  rfl

theorem digitsToNat_reverse : ∀ (l : List Nat),
    digitsToNat l.reverse = Nat.ofDigits 10 l
  | [] => by simp [digitsToNat]
  | x :: xs => by
    rw [List.reverse_cons, digitsToNat_append, digitsToNat_reverse xs]
    simp [digitsToNat, Nat.ofDigits_cons]
    ring

theorem digitsToNat_natDigitsM (c : Nat) : digitsToNat (natDigitsM c) = c := by
  by_cases hc : c = 0
  · subst hc
    rfl
  · rw [natDigitsM_eq c hc, digitsToNat_reverse, Nat.ofDigits_digits]

theorem digitsToNat_replicate_zero (k : Nat) (ds : List Nat) :
    digitsToNat (List.replicate k 0 ++ ds) = digitsToNat ds := by
  rw [digitsToNat_append]
  have : digitsToNat (List.replicate k 0) = 0 := by
    induction k with
    | zero => rfl
    | succ j ih =>
      rw [List.replicate_succ]
      unfold digitsToNat at ih ⊢
      simpa using ih
  rw [this]
  simp

/-- The decimal digit a character denotes, if any. -/
def charDigit? (c : Char) : Option Nat :=
  if '0' ≤ c ∧ c ≤ '9' then some (c.toNat - 48) else none

theorem charDigit?_digitChar {d : Nat} (hd : d < 10) :
    charDigit? (Nat.digitChar d) = some d := by
  interval_cases d <;> rfl

theorem digitChar_ne_dot {d : Nat} (hd : d < 10) : Nat.digitChar d ≠ '.' := by
  interval_cases d <;> decide

theorem digitChar_ne_E {d : Nat} (hd : d < 10) : Nat.digitChar d ≠ 'E' := by
  interval_cases d <;> decide

/-- `'E%+d'` formatting of an exponent. -/
def intSignedChars (n : Int) : List Char :=
  if n < 0 then '-' :: (natDigitsM n.natAbs).map Nat.digitChar
  else '+' :: (natDigitsM n.toNat).map Nat.digitChar

/-- `Decimal.__str__` for a nonnegative finite value, following
`_pydecimal.Decimal.__str__`: fixed-point notation when the exponent is
non-positive and the adjusted position of the most significant digit is
above `-6`, scientific notation (`E%+d`) otherwise. -/
def pyDecChars (d : PyDecimal) : List Char :=
  let ds := natDigitsM d.coeff
  let leftdigits : Int := d.exp + ds.length
  let dotplace : Int := if d.exp ≤ 0 ∧ -6 < leftdigits then leftdigits else 1
  let intpart : List Char :=
    if dotplace ≤ 0 then ['0']
    else if (ds.length : Int) ≤ dotplace then
      ds.map Nat.digitChar ++ List.replicate (dotplace - ds.length).toNat '0'
    else (ds.take dotplace.toNat).map Nat.digitChar
  let fracpart : List Char :=
    if dotplace ≤ 0 then
      '.' :: (List.replicate (-dotplace).toNat '0' ++ ds.map Nat.digitChar)
    else if (ds.length : Int) ≤ dotplace then []
    else '.' :: (ds.drop dotplace.toNat).map Nat.digitChar
  let exppart : List Char :=
    if leftdigits = dotplace then [] else 'E' :: intSignedChars (leftdigits - dotplace)
  intpart ++ fracpart ++ exppart

/-- `str()` of a nonnegative finite Python `Decimal`. -/
def pyDecStr (d : PyDecimal) : String := String.mk (pyDecChars d)

/-- Take the leading run of digit characters. -/
def takeDigits : List Char → List Nat × List Char
  | [] => ([], [])
  | c :: rest =>
    match charDigit? c with
    | some d =>
      let r := takeDigits rest
      (d :: r.1, r.2)
    | none => ([], c :: rest)

/-- Parse a full run of digits (the whole remaining input). -/
def parseAllDigits (ds : List Char) : Option Int :=
  let r := takeDigits ds
  if r.1 ≠ [] ∧ r.2 = [] then some (digitsToNat r.1 : Int) else none

/-- Parse the exponent body of an `E` suffix (optional sign, digits). -/
def parseExpChars (cs : List Char) : Option Int :=
  match cs with
  | [] => parseAllDigits []
  | c :: rest =>
    if c = '+' then parseAllDigits rest
    else if c = '-' then (parseAllDigits rest).map (fun z => -z)
    else parseAllDigits (c :: rest)

/-- Python `Decimal(s)` on a plain nonnegative numeric string
(`digits [. digits] [E [sign] digits]`): the coefficient is the
concatenated digit string and the exponent counts the fractional digits,
adjusted by the `E` suffix. -/
def pyDecParseChars (cs : List Char) : Option PyDecimal :=
  let ip := takeDigits cs
  match ip.2 with
  | [] => if ip.1.isEmpty then none else some ⟨digitsToNat ip.1, 0⟩
  | c :: rest =>
    if c = '.' then
      let fp := takeDigits rest
      if ip.1.isEmpty ∧ fp.1.isEmpty then none
      else
        match fp.2 with
        | [] => some ⟨digitsToNat (ip.1 ++ fp.1), -(fp.1.length : Int)⟩
        | c2 :: ecs =>
          if c2 = 'E' then
            (parseExpChars ecs).map fun e => ⟨digitsToNat (ip.1 ++ fp.1), e - fp.1.length⟩
          else none
    else if c = 'E' then
      if ip.1.isEmpty then none
      else (parseExpChars rest).map fun e => ⟨digitsToNat ip.1, e⟩
    else none

/-- Python `Decimal(s)` for the strings `str(Decimal)` emits. -/
def pyDecParse (s : String) : Option PyDecimal := pyDecParseChars s.toList

theorem takeDigits_map_append {ds : List Nat} {cs : List Char}
    (hds : ∀ d ∈ ds, d < 10) (hcs : cs.head?.bind charDigit? = none) :
    takeDigits (ds.map Nat.digitChar ++ cs) = (ds, cs) := by
  induction ds with
  | nil =>
    simp only [List.map_nil, List.nil_append]
    cases cs with
    | nil => rfl
    | cons c rest =>
      simp only [List.head?_cons, Option.some_bind] at hcs
      unfold takeDigits
      rw [hcs]
  | cons dd rest ih =>
    simp only [List.map_cons, List.cons_append]
    unfold takeDigits
    rw [charDigit?_digitChar (hds dd (by simp))]
    dsimp only
    rw [ih (fun x hx => hds x (by simp [hx]))]

theorem parseAllDigits_map (c : Nat) :
    parseAllDigits ((natDigitsM c).map Nat.digitChar) = some (c : Int) := by
  unfold parseAllDigits
  have ht : takeDigits ((natDigitsM c).map Nat.digitChar) = (natDigitsM c, []) := by
    have := @takeDigits_map_append (natDigitsM c) [] (natDigitsM_lt_base _) (by simp)
    simpa using this
  rw [ht]
  dsimp only
  rw [if_pos ⟨natDigitsM_ne_nil _, rfl⟩, digitsToNat_natDigitsM]

theorem parseExpChars_intSignedChars (n : Int) : parseExpChars (intSignedChars n) = some n := by
  unfold intSignedChars
  split
  · next hneg =>
    show parseExpChars ('-' :: (natDigitsM n.natAbs).map Nat.digitChar) = some n
    unfold parseExpChars
    dsimp only
    rw [if_neg (by decide), if_pos rfl, parseAllDigits_map]
    simp only [Option.map_some']
    congr 1
    omega
  · next hpos =>
    show parseExpChars ('+' :: (natDigitsM n.toNat).map Nat.digitChar) = some n
    unfold parseExpChars
    dsimp only
    rw [if_pos rfl, parseAllDigits_map]
    congr 1
    omega

theorem takeDigits_map {ds : List Nat} (hds : ∀ d ∈ ds, d < 10) :
    takeDigits (ds.map Nat.digitChar) = (ds, []) := by
  have := @takeDigits_map_append ds [] hds (by simp)
  simpa using this

theorem pyDecParseChars_plain (ds : List Nat) (hne : ds ≠ []) (hds : ∀ d ∈ ds, d < 10) :
    pyDecParseChars (ds.map Nat.digitChar) = some ⟨digitsToNat ds, 0⟩ := by
  unfold pyDecParseChars
  rw [takeDigits_map hds]
  dsimp only
  rw [if_neg (by simp [hne])]

theorem pyDecParseChars_fixed_small (k : Nat) (ds : List Nat)
    (hds : ∀ d ∈ ds, d < 10) :
    pyDecParseChars ('0' :: '.' :: ((List.replicate k 0 ++ ds).map Nat.digitChar))
      = some ⟨digitsToNat ds, -((k + ds.length : Nat) : Int)⟩ := by
  unfold pyDecParseChars
  have h1 : ('0' : Char) :: '.' :: ((List.replicate k 0 ++ ds).map Nat.digitChar)
      = ([0].map Nat.digitChar) ++ '.' :: ((List.replicate k 0 ++ ds).map Nat.digitChar) := rfl
  rw [h1, takeDigits_map_append (by simp) (by simp [charDigit?])]
  dsimp only
  rw [if_pos rfl]
  have hall : ∀ d ∈ List.replicate k 0 ++ ds, d < 10 := by
    intro d hd
    rcases List.mem_append.mp hd with h | h
    · have := List.eq_of_mem_replicate h
      omega
    · exact hds d h
  rw [takeDigits_map hall]
  dsimp only
  rw [if_neg (by simp)]
  have h2 : (0 : Nat) :: (List.replicate k 0 ++ ds) = List.replicate (k + 1) 0 ++ ds := by
    simp [List.replicate_succ]
  simp only [List.cons_append, List.nil_append] at h2 ⊢
  rw [h2, digitsToNat_replicate_zero]
  simp only [List.length_append, List.length_replicate]

theorem pyDecParseChars_frac (dsa dsb : List Nat) (hne : dsa ≠ [])
    (ha : ∀ d ∈ dsa, d < 10) (hb : ∀ d ∈ dsb, d < 10) :
    pyDecParseChars (dsa.map Nat.digitChar ++ '.' :: dsb.map Nat.digitChar)
      = some ⟨digitsToNat (dsa ++ dsb), -(dsb.length : Int)⟩ := by
  unfold pyDecParseChars
  rw [takeDigits_map_append ha (by simp [charDigit?])]
  dsimp only
  rw [if_pos rfl, takeDigits_map hb]
  dsimp only
  rw [if_neg (by simp [hne])]

theorem pyDecParseChars_sci_plain (ds : List Nat) (n : Int) (hne : ds ≠ [])
    (hds : ∀ d ∈ ds, d < 10) :
    pyDecParseChars (ds.map Nat.digitChar ++ 'E' :: intSignedChars n)
      = some ⟨digitsToNat ds, n⟩ := by
  unfold pyDecParseChars
  rw [takeDigits_map_append hds (by simp [charDigit?])]
  dsimp only
  rw [if_neg (by decide), if_pos rfl, if_neg (by simp [hne]), parseExpChars_intSignedChars]
  rfl

theorem pyDecParseChars_sci_frac (dsa dsb : List Nat) (n : Int) (hne : dsa ≠ [])
    (ha : ∀ d ∈ dsa, d < 10) (hb : ∀ d ∈ dsb, d < 10) :
    pyDecParseChars (dsa.map Nat.digitChar
        ++ '.' :: (dsb.map Nat.digitChar ++ 'E' :: intSignedChars n))
      = some ⟨digitsToNat (dsa ++ dsb), n - dsb.length⟩ := by
  unfold pyDecParseChars
  rw [takeDigits_map_append ha (by simp [charDigit?])]
  dsimp only
  rw [if_pos rfl, takeDigits_map_append hb (by simp [charDigit?])]
  dsimp only
  rw [if_neg (by simp [hne]), if_pos rfl, parseExpChars_intSignedChars]
  rfl

theorem pyDecChars_fixed_small (c : Nat) (e : Int)
    (h1 : e ≤ 0) (h2 : -6 < e + ((natDigitsM c).length : Int))
    (h3 : e + ((natDigitsM c).length : Int) ≤ 0) :
    pyDecChars ⟨c, e⟩
      = '0' :: '.' :: ((List.replicate (-(e + ((natDigitsM c).length : Int))).toNat 0
          ++ natDigitsM c).map Nat.digitChar) := by
  have hmode : e ≤ 0 ∧ -6 < e + ((natDigitsM c).length : Int) := ⟨h1, h2⟩
  unfold pyDecChars
  dsimp only
  rw [if_pos hmode, if_pos h3, if_pos h3, if_pos rfl]
  simp [List.map_replicate]
  exact Or.inr rfl

theorem pyDecChars_int (c : Nat) :
    pyDecChars ⟨c, 0⟩ = (natDigitsM c).map Nat.digitChar := by
  have hlen : 1 ≤ (natDigitsM c).length :=
    List.length_pos.mpr (natDigitsM_ne_nil c)
  have hmode : (0 : Int) ≤ 0 ∧ -6 < 0 + ((natDigitsM c).length : Int) := ⟨le_refl 0, by omega⟩
  unfold pyDecChars
  dsimp only
  rw [if_pos hmode]
  rw [if_neg (by omega), if_pos (by omega)]
  rw [if_neg (by omega), if_pos (by omega)]
  rw [if_pos rfl]
  rw [show ((0 : Int) + ((natDigitsM c).length : Int) - ((natDigitsM c).length : Int)).toNat = 0
    by omega]
  simp

theorem pyDecChars_fixed_split (c : Nat) (e : Int)
    (h1 : e < 0) (h2 : 0 < e + ((natDigitsM c).length : Int)) :
    pyDecChars ⟨c, e⟩
      = ((natDigitsM c).take (e + ((natDigitsM c).length : Int)).toNat).map Nat.digitChar
        ++ '.' :: ((natDigitsM c).drop (e + ((natDigitsM c).length : Int)).toNat).map
            Nat.digitChar := by
  have hmode : e ≤ 0 ∧ -6 < e + ((natDigitsM c).length : Int) := ⟨le_of_lt h1, by omega⟩
  unfold pyDecChars
  dsimp only
  rw [if_pos hmode]
  rw [if_neg (by omega), if_neg (by omega)]
  rw [if_neg (by omega), if_neg (by omega)]
  rw [if_pos rfl]
  simp

theorem pyDecChars_sci_plain (c : Nat) (e : Int)
    (hmode : ¬(e ≤ 0 ∧ -6 < e + ((natDigitsM c).length : Int)))
    (hlen1 : (natDigitsM c).length = 1) :
    pyDecChars ⟨c, e⟩ = (natDigitsM c).map Nat.digitChar ++ 'E' :: intSignedChars e := by
  unfold pyDecChars
  dsimp only
  rw [if_neg hmode]
  rw [if_neg (by omega), if_pos (by rw [hlen1]; norm_num)]
  rw [if_neg (by omega), if_pos (by rw [hlen1]; norm_num)]
  have hne1 : e + ((natDigitsM c).length : Int) ≠ 1 := by
    intro hh
    exact hmode ⟨by omega, by omega⟩
  rw [if_neg hne1]
  rw [show ((1 : Int) - ((natDigitsM c).length : Int)).toNat = 0 by rw [hlen1]; norm_num]
  rw [show e + ((natDigitsM c).length : Int) - 1 = e by rw [hlen1]; ring]
  simp

theorem pyDecChars_sci_split (c : Nat) (e : Int)
    (hmode : ¬(e ≤ 0 ∧ -6 < e + ((natDigitsM c).length : Int)))
    (hlen2 : 2 ≤ (natDigitsM c).length) :
    pyDecChars ⟨c, e⟩
      = ((natDigitsM c).take 1).map Nat.digitChar
        ++ '.' :: (((natDigitsM c).drop 1).map Nat.digitChar
            ++ 'E' :: intSignedChars (e + ((natDigitsM c).length : Int) - 1)) := by
  unfold pyDecChars
  dsimp only
  rw [if_neg hmode]
  rw [if_neg (by omega), if_neg (by omega)]
  rw [if_neg (by omega), if_neg (by omega)]
  have hne1 : e + ((natDigitsM c).length : Int) ≠ 1 := by
    intro hh
    exact hmode ⟨by omega, by omega⟩
  rw [if_neg hne1]
  simp [Int.toNat_one]

theorem pyDecParseChars_pyDecChars (d : PyDecimal) :
    pyDecParseChars (pyDecChars d) = some d := by
  obtain ⟨c, e⟩ := d
  have hne := natDigitsM_ne_nil c
  have hlt := natDigitsM_lt_base c
  have hlen : 1 ≤ (natDigitsM c).length := List.length_pos.mpr hne
  by_cases hmode : e ≤ 0 ∧ -6 < e + ((natDigitsM c).length : Int)
  · by_cases hsmall : e + ((natDigitsM c).length : Int) ≤ 0
    · rw [pyDecChars_fixed_small c e hmode.1 hmode.2 hsmall]
      rw [pyDecParseChars_fixed_small _ _ hlt]
      have hexp : -((((-(e + ((natDigitsM c).length : Int))).toNat
          + (natDigitsM c).length : Nat)) : Int) = e := by omega
      rw [digitsToNat_natDigitsM, hexp]
    · by_cases he0 : e = 0
      · subst he0
        rw [pyDecChars_int c, pyDecParseChars_plain _ hne hlt, digitsToNat_natDigitsM]
      · have he : e < 0 := lt_of_le_of_ne hmode.1 he0
        rw [pyDecChars_fixed_split c e he (by omega)]
        have htn : (natDigitsM c).take (e + ((natDigitsM c).length : Int)).toNat ≠ [] := by
          rw [Ne, List.take_eq_nil_iff]
          push_neg
          exact ⟨by omega, hne⟩
        have hta : ∀ x ∈ (natDigitsM c).take (e + ((natDigitsM c).length : Int)).toNat,
            x < 10 := fun x hx => hlt x (List.take_subset _ _ hx)
        have htb : ∀ x ∈ (natDigitsM c).drop (e + ((natDigitsM c).length : Int)).toNat,
            x < 10 := fun x hx => hlt x (List.drop_subset _ _ hx)
        rw [pyDecParseChars_frac _ _ htn hta htb]
        rw [List.take_append_drop, digitsToNat_natDigitsM]
        have hexp : -((((natDigitsM c).drop
            (e + ((natDigitsM c).length : Int)).toNat).length : Int)) = e := by
          rw [List.length_drop]
          omega
        rw [hexp]
  · by_cases hl1 : (natDigitsM c).length = 1
    · rw [pyDecChars_sci_plain c e hmode hl1]
      rw [pyDecParseChars_sci_plain _ _ hne hlt, digitsToNat_natDigitsM]
    · have hl2 : 2 ≤ (natDigitsM c).length := by omega
      rw [pyDecChars_sci_split c e hmode hl2]
      have htn : (natDigitsM c).take 1 ≠ [] := by
        rw [Ne, List.take_eq_nil_iff]
        push_neg
        exact ⟨one_ne_zero, hne⟩
      have hta : ∀ x ∈ (natDigitsM c).take 1, x < 10 :=
        fun x hx => hlt x (List.take_subset _ _ hx)
      have htb : ∀ x ∈ (natDigitsM c).drop 1, x < 10 :=
        fun x hx => hlt x (List.drop_subset _ _ hx)
      rw [pyDecParseChars_sci_frac _ _ _ htn hta htb]
      rw [List.take_append_drop, digitsToNat_natDigitsM]
      have hexp : e + ((natDigitsM c).length : Int) - 1
          - ((((natDigitsM c).drop 1).length : Nat) : Int) = e := by
        have hd := List.length_drop 1 (natDigitsM c)
        omega
      rw [hexp]

theorem pyDecParse_pyDecStr (d : PyDecimal) : pyDecParse (pyDecStr d) = some d := by
  unfold pyDecParse pyDecStr
  exact pyDecParseChars_pyDecChars d

/-- Split a character list at its first dot, if any. -/
def splitDot : List Char → Option (List Char × List Char)
  | [] => none
  | c :: rest =>
    if c = '.' then some ([], rest)
    else (splitDot rest).map (fun p => (c :: p.1, p.2))

/-- A string is in fixed-point notation with exactly eight fractional
digits: a non-empty digit run, one dot, then exactly eight digits. -/
def isFixed8 (s : String) : Bool :=
  match splitDot s.toList with
  | some p => !p.1.isEmpty && p.2.length == 8
      && (p.1 ++ p.2).all (fun ch => (charDigit? ch).isSome)
  | none => false

theorem splitDot_map_append (ds : List Nat) (hds : ∀ d ∈ ds, d < 10) (rest : List Char) :
    splitDot (ds.map Nat.digitChar ++ '.' :: rest) = some (ds.map Nat.digitChar, rest) := by
  induction ds with
  | nil => simp [splitDot]
  | cons a t ih =>
    have ha : a < 10 := hds a (by simp)
    simp only [List.map_cons, List.cons_append]
    rw [show splitDot (Nat.digitChar a :: (t.map Nat.digitChar ++ '.' :: rest))
        = if Nat.digitChar a = '.' then some ([], t.map Nat.digitChar ++ '.' :: rest)
          else (splitDot (t.map Nat.digitChar ++ '.' :: rest)).map
            (fun p => (Nat.digitChar a :: p.1, p.2)) from rfl]
    rw [if_neg (digitChar_ne_dot ha), ih (fun d hd => hds d (by simp [hd]))]
    rfl

theorem all_digitChar (ds : List Nat) (h : ∀ d ∈ ds, d < 10) :
    (ds.map Nat.digitChar).all (fun ch => (charDigit? ch).isSome) = true := by
  rw [List.all_eq_true]
  intro ch hch
  obtain ⟨d, hd, rfl⟩ := List.mem_map.mp hch
  rw [charDigit?_digitChar (h d hd)]
  rfl

theorem natDigitsM_length_ge_three (c : Nat) (hc : 100 ≤ c) :
    3 ≤ (natDigitsM c).length := by
  have hc0 : c ≠ 0 := by omega
  have h100 : 10 ^ 2 ≤ c := by simpa using hc
  have hlog := (Nat.pow_le_iff_le_log (by norm_num) hc0).mp h100
  have hdl := Nat.digits_len 10 c (by norm_num) hc0
  rw [natDigitsM_eq c hc0, List.length_reverse, hdl]
  omega

theorem isFixed8_quant8 (c : Nat) (hc : 100 ≤ c) :
    isFixed8 (pyDecStr ⟨c, (-8 : Int)⟩) = true := by
  have hlt := natDigitsM_lt_base c
  have hlen3 := natDigitsM_length_ge_three c hc
  unfold pyDecStr isFixed8
  rw [show (String.mk (pyDecChars ⟨c, (-8 : Int)⟩)).toList = pyDecChars ⟨c, (-8 : Int)⟩ from rfl]
  by_cases hsmall : (-8 : Int) + ((natDigitsM c).length : Int) ≤ 0
  · rw [pyDecChars_fixed_small c (-8) (by norm_num) (by omega) hsmall]
    rw [show ∀ X : List Char, splitDot ('0' :: '.' :: X) = some (['0'], X) from fun X => rfl]
    have hall : ∀ d ∈ (0 : Nat) :: (List.replicate
        (-((-8 : Int) + ((natDigitsM c).length : Int))).toNat 0 ++ natDigitsM c), d < 10 := by
      intro d hd
      rcases List.mem_cons.mp hd with h | h
      · omega
      · rcases List.mem_append.mp h with h | h
        · have := List.eq_of_mem_replicate h
          omega
        · exact hlt d h
    have hlenf : ((List.replicate (-((-8 : Int) + ((natDigitsM c).length : Int))).toNat 0
        ++ natDigitsM c).map Nat.digitChar).length = 8 := by
      simp only [List.length_map, List.length_append, List.length_replicate]
      omega
    simp only [Option.some.injEq]
    rw [Bool.and_eq_true, Bool.and_eq_true]
    refine ⟨⟨by simp, by rw [hlenf]; rfl⟩, ?_⟩
    rw [show (['0'] : List Char) = [0].map Nat.digitChar from rfl, ← List.map_append]
    apply all_digitChar
    intro d hd
    rcases List.mem_append.mp hd with h | h
    · simp at h
      omega
    · exact hall d (List.mem_cons_of_mem _ h)
  · rw [pyDecChars_fixed_split c (-8) (by norm_num) (by omega)]
    rw [splitDot_map_append _ (fun d hd => hlt d (List.take_subset _ _ hd)) _]
    simp only [Option.some.injEq]
    rw [Bool.and_eq_true, Bool.and_eq_true]
    refine ⟨⟨?_, ?_⟩, ?_⟩
    · simp only [Bool.not_eq_true']
      simp
      exact ⟨by omega, natDigitsM_ne_nil c⟩
    · simp only [List.length_map, List.length_drop]
      rw [beq_iff_eq]
      omega
    · rw [← List.map_append]
      apply all_digitChar
      intro d hd
      rcases List.mem_append.mp hd with h | h
      · exact hlt d (List.take_subset _ _ h)
      · exact hlt d (List.drop_subset _ _ h)

/-- Document-layer mirror of `PatternInput`: `to_jsonable` serializes the
amount as `str(Decimal)`. -/
structure PatternInputD where
  txid : String
  vout : Nat
  amount : PyDecimal
deriving DecidableEq

/-- Document-layer mirror of `PatternOutput`. -/
structure PatternOutputD where
  address : String
  amount : PyDecimal
deriving DecidableEq

/-- Document-layer mirror of `PatternPlan` carrying the exact `Decimal`
representations that `to_jsonable` stringifies. -/
structure PatternPlanD where
  inputs : List PatternInputD
  outputs : List PatternOutputD
  change_output : Option PatternOutputD
  fee : PyDecimal
deriving DecidableEq

/-- The amount strings of `PatternPlan.to_jsonable`, in document order:
the fee, each input amount, each output amount, then the change amount. -/
def planAmountStrings (p : PatternPlanD) : List String :=
  pyDecStr p.fee :: (p.inputs.map fun i => pyDecStr i.amount)
    ++ (p.outputs.map fun o => pyDecStr o.amount)
    ++ (match p.change_output with
        | some ch => [pyDecStr ch.amount]
        | none => [])

/-- The first step of the repository's own test scenario, as its Decimal
amounts are actually stored: fee `Decimal("0.1")`, funding input
`Decimal(str(4.0))`, normalized output `1.00000000`, change `5.90000000`. -/
def planD9 : PatternPlanD :=
  { inputs := [⟨"utxo-a", 0, ⟨40, -1⟩⟩]
    outputs := [⟨"dst", ⟨100000000, -8⟩⟩]
    change_output := some ⟨"chg", ⟨590000000, -8⟩⟩
    fee := ⟨1, -1⟩ }

/-- C9 counterexample: in the plan inspection document for the repository's
own test scenario the fee is serialized as `"0.1"` and the funding input as
`"4.0"` — one-decimal strings, not fixed-8 — and a quantized amount below
`1e-6` such as `1e-8` is serialized in scientific notation (`"1E-8"`), so
not every amount is a fixed-8-decimal string. -/
theorem pattern_plan_document_counterexample :
    planAmountStrings planD9 = ["0.1", "4.0", "1.00000000", "5.90000000"] ∧
    isFixed8 "0.1" = false ∧
    isFixed8 "4.0" = false ∧
    isFixed8 "5.90000000" = true ∧
    pyDecStr ⟨1, (-8 : Int)⟩ = "1E-8" ∧
    isFixed8 "1E-8" = false := by decide

/-- C9 (amended): every amount in the plan inspection document is the
`str()` of the stored `Decimal` — a decimal string, never a binary float —
and re-parsing any serialized amount recovers the exact same `Decimal`
(hence re-serializing reproduces the exact string with no drift); amounts
that were quantized to eight decimal places and are at least `1e-6`
(coefficient at least 100 at exponent -8) are serialized as fixed-point
strings with exactly eight fractional digits, but the fee and the input
amounts keep the precision they were stored with, and quantized amounts
below `1e-6` render in scientific notation. -/
theorem pattern_plan_document_serialization (p : PatternPlanD)
    (h8 : ∀ o ∈ p.outputs, o.amount.exp = -8 ∧ 100 ≤ o.amount.coeff) :
    (∀ s ∈ planAmountStrings p,
        ∃ dec : PyDecimal, pyDecParse s = some dec ∧ pyDecStr dec = s) ∧
    (∀ o ∈ p.outputs, isFixed8 (pyDecStr o.amount) = true) := by
  constructor
  · intro s hs
    have himg : ∃ d0 : PyDecimal, s = pyDecStr d0 := by
      unfold planAmountStrings at hs
      rcases List.mem_cons.mp hs with h | h
      · exact ⟨p.fee, h⟩
      · rcases List.mem_append.mp h with h | h
        · rcases List.mem_append.mp h with h | h
          · obtain ⟨i, _, rfl⟩ := List.mem_map.mp h
            exact ⟨i.amount, rfl⟩
          · obtain ⟨o, _, rfl⟩ := List.mem_map.mp h
            exact ⟨o.amount, rfl⟩
        · cases hch : p.change_output with
          | none =>
            rw [hch] at h
            simp at h
          | some ch =>
            rw [hch] at h
            simp at h
            exact ⟨ch.amount, h⟩
    obtain ⟨d0, rfl⟩ := himg
    exact ⟨d0, pyDecParse_pyDecStr d0, rfl⟩
  · intro o ho
    obtain ⟨he, hc⟩ := h8 o ho
    have hrw : o.amount = ⟨o.amount.coeff, (-8 : Int)⟩ := by
      cases ham : o.amount with
      | mk co ex =>
        rw [ham] at he
        simp only at he ⊢
        rw [he]
    rw [hrw]
    exact isFixed8_quant8 _ hc

/-- C9 witness: the amended statement instantiated at the test scenario's
first step. -/
theorem pattern_plan_document_serialization_witness :
    (∀ s ∈ planAmountStrings planD9,
        ∃ dec : PyDecimal, pyDecParse s = some dec ∧ pyDecStr dec = s) ∧
    (∀ o ∈ planD9.outputs, isFixed8 (pyDecStr o.amount) = true) :=
  pattern_plan_document_serialization planD9 (by decide)
